import Mathlib

/-!
Verification development for `blast2graph.py`, the core of the
BlastGraphMetrics repository.

The program reads whitespace-delimited BLAST hit records and runs a
sequential pipeline (function `main`, lines 12-57 of the source):

1. `get_self_bit_scores_and_org_ids` - records per-sequence best self-hit
   bit scores as node attribute `sbs`;
2. `get_metrics` - builds a graph with one edge per unordered sequence
   pair, carrying metrics `evl`, `bit`, and (when both endpoints have an
   `sbs` attribute) `bpr`, `bsr`;
3. `compute_organism_averages` - folds edges into per-organism-pair counts
   and metric sums, and replaces an edge `evl` equal to `181.0` by `None`
   ("pending e-value normalization");
4. `compute_global_averags` - computes per-pair and global averages;
5. `normalize_bit_score_ratios` - scales every metric by
   `global average / pair average` and then rewrites every edge whose
   `evl` is falsy with a synthetic substitute.

The embedding below follows the source statement by statement.  Values are
rationals (`ℚ`): every arithmetic operation the program performs on
ordinary data is field arithmetic, exact on the inputs used here.  Python
exceptions (`IndexError`, `ValueError`, `KeyError`, `ZeroDivisionError`,
`TypeError`, `decimal.InvalidOperation`) are modelled with `Except Err`.
The special float values that `normalize_bit_score_ratios` can produce
(`float("inf")`, `float("-inf")` and `nan` from `(-inf + 10) / inf`) are
modelled by dedicated constructors where they can actually arise.

The conversion `float(-Decimal(field).log10())` (line 224) is real-valued
and generally irrational; it is modelled separately by `neglog10c : ℚ → ℝ`.
A token of the input carries, next to its raw text, the outcome of
`float(token)` and the outcome of that conversion (finite rational value,
or `inf` for an E-value of zero, mirroring lines 224-227); the concrete
inputs used in theorems only use E-values `0` and powers of ten, for which
the conversion is exact.  File output (`print_abc_files`) performs I/O
only and is not modelled.
-/

set_option maxRecDepth 16384

deriving instance DecidableEq for Except

namespace BlastGraph

/-- Python exceptions raised by the program.  `valueError` carries the
string that `float()` rejected, `invalidOperation` the string that
`Decimal()` rejected, `keyError` the missing dictionary key.  None of the
constructors carries a line number or a full input line. -/
inductive Err where
  | indexError : Err
  | valueError : String → Err
  | invalidOperation : String → Err
  | keyError : String → Err
  | typeError : Err
  | zeroDivisionError : Err
deriving DecidableEq, Repr

/-- Value stored under the `evl` key of an edge: an ordinary float
(`num`), Python `None` (`null`, set by `compute_organism_averages` for
saturated E-values), or the special floats `nan`, `inf`, `-inf` that the
second pass of `normalize_bit_score_ratios` can produce. -/
inductive PyVal where
  | null : PyVal
  | nan : PyVal
  | pinf : PyVal
  | ninf : PyVal
  | num : ℚ → PyVal
deriving DecidableEq, Repr

/-- Result of `float(-Decimal(s).log10())` for a numeric string `s`:
`inf` when the E-value is exactly zero (`Decimal.log10` returns
`-Infinity`), otherwise a finite value, rational for the inputs used
here. -/
inductive DecLog where
  | inf : DecLog
  | fin : ℚ → DecLog
deriving DecidableEq, Repr

/-- One whitespace-separated field of an input line: the raw text `s`,
the result `val` of `float(s)` (`none` = `ValueError`), and the result
`nld` of `float(-Decimal(s).log10())` (`none` = `InvalidOperation`).
Inf/nan float literals, which BLAST never emits, are outside the model. -/
structure Tok where
  s : String
  val : Option ℚ
  nld : Option DecLog
deriving DecidableEq, Repr

/-- A stripped and split input line (`line.strip().split()`, line 160/209);
the empty list is a blank line. -/
abbrev Line := List Tok

/-- Zero-based column positions, `args.evcol-1` etc. from `main`
(lines 35-36, 41-42; defaults 10, 11, 12, 13). -/
structure Cols where
  evcol : ℕ
  bscol : ℕ
  qlcol : ℕ
  slcol : ℕ
deriving DecidableEq, Repr

/-- `temp[i]`: list indexing, `IndexError` when out of range. -/
def colTok (l : Line) (i : ℕ) : Except Err Tok :=
  match l[i]? with
  | some t => .ok t
  | none => .error .indexError

/-- `float(token)`: `ValueError` when the text is not numeric. -/
def toFloat (t : Tok) : Except Err ℚ :=
  match t.val with
  | some q => .ok q
  | none => .error (.valueError t.s)

/-- Python float division: raises `ZeroDivisionError` on a zero
denominator. -/
def pydiv (a b : ℚ) : Except Err ℚ :=
  if b = 0 then .error .zeroDivisionError else .ok (a / b)

/-- Characters before the first occurrence of the delimiter. -/
def takeUntil (c : Char) : List Char → List Char
  | [] => []
  | x :: xs => if x = c then [] else x :: takeUntil c xs

/-- Organism tag of a sequence identifier: `seq_id.split(idchar)[0]`,
the prefix before the first occurrence of the delimiter. -/
def orgOf (idchar : Char) (s : String) : String :=
  ⟨takeUntil idchar s.data⟩

/-- Canonical form of an unordered pair key (a NetworkX edge joins the
same two endpoints regardless of orientation; the representation sorts
them, which is observationally equivalent because every use of an edge's
endpoints in the program is symmetric). -/
def nkey (a b : String) : String × String :=
  if a ≤ b then (a, b) else (b, a)

/-- Association-list lookup for canonical keys. -/
def alookup {α : Type} (l : List ((String × String) × α)) (k : String × String) :
    Option α :=
  match l.find? (fun e => e.1 = k) with
  | some e => some e.2
  | none => none

/-- Association-list update of the (first) entry with the given key. -/
def aset {α : Type} (l : List ((String × String) × α)) (k : String × String)
    (v : α) : List ((String × String) × α) :=
  match l with
  | [] => []
  | e :: es => if e.1 = k then (k, v) :: es else e :: aset es k v

/-- Node store of the metric graph: sequence id ↦ `sbs` attribute.
`some q` means the node has self-score `q`; `none` means the node exists
without an `sbs` attribute (it was created implicitly by `add_edge`).
The constant `org` attribute (`None`, never read) is omitted. -/
abbrev NodeMap := List (String × Option ℚ)

def hasNode (ns : NodeMap) (id : String) : Bool :=
  (ns.find? (fun e => e.1 = id)).isSome

/-- Reading `met_grf.node[id]['sbs']`: `KeyError` when the node lacks the
attribute.  Only called when the node exists. -/
def getSbs (ns : NodeMap) (id : String) : Except Err ℚ :=
  match ns.find? (fun e => e.1 = id) with
  | some (_, some q) => .ok q
  | some (_, none) => .error (.keyError "sbs")
  | none => .error (.keyError "sbs")

/-- `met_grf.add_node(id, sbs=b, org=None)`. -/
def addNode (ns : NodeMap) (id : String) (b : ℚ) : NodeMap :=
  ns ++ [(id, some b)]

/-- Overwriting `met_grf.node[id]['sbs']`. -/
def setSbs (ns : NodeMap) (id : String) (b : ℚ) : NodeMap :=
  match ns with
  | [] => []
  | e :: es => if e.1 = id then (id, some b) :: es else e :: setSbs es id b

/-- Node creation performed implicitly by `met_grf.add_edge` for an
endpoint that is not yet a node: present nodes are untouched, a missing
node is added without an `sbs` attribute. -/
def ensureNode (ns : NodeMap) (id : String) : NodeMap :=
  if hasNode ns id then ns else ns ++ [(id, none)]

/-- Metric dictionary of one edge.  `evl` and `bit` are set whenever the
edge is created (lines 223-224); the `bpr`/`bsr` keys exist only when the
record was processed with both endpoints present as nodes (lines 229-235),
so they are `Option`s, `none` meaning the key is absent. -/
structure EdgeData where
  evl : PyVal
  bit : ℚ
  bpr : Option ℚ
  bsr : Option ℚ
deriving DecidableEq, Repr

/-- Edge store of the metric graph, keyed by canonical unordered pair. -/
abbrev EdgeMap := List ((String × String) × EdgeData)

/-- The metric graph `met_grf`. -/
structure MState where
  nodes : NodeMap
  edges : EdgeMap
deriving DecidableEq, Repr

def findEdge (es : EdgeMap) (a b : String) : Option EdgeData :=
  alookup es (nkey a b)

/-! ## `get_self_bit_scores_and_org_ids` (lines 124-174)

For every record whose first two fields are identical the best (maximum)
bit score is stored as the node's `sbs` attribute; organism tags are
collected into a set.  The organism set is returned but never read by any
later phase (`compute_organism_averages` receives it and ignores it). -/

structure SState where
  nodes : NodeMap
  orgIds : List String
deriving DecidableEq, Repr

def insertSet (l : List String) (s : String) : List String :=
  if l.contains s then l else l ++ [s]

/-- One iteration of the loop at lines 159-174. -/
def selfStep (bscol : ℕ) (idchar : Char) (st : SState) (l : Line) :
    Except Err SState :=
  match l with
  | [] => .ok st
  | t0 :: _ =>
    match t0.s.data with
    | [] => .error .indexError
    | c :: _ =>
      if c = '#' then .ok st
      else
        match colTok l 1 with
        | .error e => .error e
        | .ok t1 =>
          if t0.s = t1.s then
            match colTok l bscol with
            | .error e => .error e
            | .ok tb =>
              match toFloat tb with
              | .error e => .error e
              | .ok bit =>
                let orgs := insertSet st.orgIds (orgOf idchar t0.s)
                if hasNode st.nodes t0.s then
                  match getSbs st.nodes t0.s with
                  | .error e => .error e
                  | .ok sbs =>
                    if bit > sbs then
                      .ok ⟨setSbs st.nodes t0.s bit, orgs⟩
                    else
                      .ok ⟨st.nodes, orgs⟩
                else
                  .ok ⟨addNode st.nodes t0.s bit, orgs⟩
          else .ok st

def getSelfBitScoresAndOrgIds (bscol : ℕ) (idchar : Char) (ls : List Line) :
    Except Err SState :=
  ls.foldlM (selfStep bscol idchar) ⟨[], []⟩

/-! ## `get_metrics` (lines 177-245)

Every record (self-hits included - the function does not skip them) is
parsed, its metric dictionary computed, and the edge for the unordered
pair created or, when the new record's bit score is strictly greater,
overwritten key by key. -/

/-- The parsed fields of one record, lines 219-227. -/
structure Hit where
  qry : String
  ref : String
  qlen : ℚ
  rlen : ℚ
  bit : ℚ
  evl : ℚ
deriving DecidableEq, Repr

/-- `metrics['evl'] = float(-Decimal(temp[evcol]).log10())` followed by
the clamp of an infinite result to `181.` (lines 224-227). -/
def evlField (t : Tok) : Except Err ℚ :=
  match t.nld with
  | none => .error (.invalidOperation t.s)
  | some .inf => .ok 181
  | some (.fin q) => .ok q

/-- Parsing of lines 219-227 in source order (`temp[0]`, `temp[1]`,
query length, subject length, bit score, E-value). -/
def parseHit (cols : Cols) (l : Line) (t0 : Tok) : Except Err Hit :=
  match colTok l 1 with
  | .error e => .error e
  | .ok t1 =>
    match colTok l cols.qlcol with
    | .error e => .error e
    | .ok tq =>
      match toFloat tq with
      | .error e => .error e
      | .ok qlen =>
        match colTok l cols.slcol with
        | .error e => .error e
        | .ok ts =>
          match toFloat ts with
          | .error e => .error e
          | .ok rlen =>
            match colTok l cols.bscol with
            | .error e => .error e
            | .ok tb =>
              match toFloat tb with
              | .error e => .error e
              | .ok bit =>
                match colTok l cols.evcol with
                | .error e => .error e
                | .ok te =>
                  match evlField te with
                  | .error e => .error e
                  | .ok evl => .ok ⟨t0.s, t1.s, qlen, rlen, bit, evl⟩

/-- The metric dictionary of lines 218-235: always `bit` and `evl`;
additionally `bpr = bit / min(lengths)` and
`bsr = bit / min(self-scores)` when both endpoints are nodes (reading a
node's missing `sbs` attribute raises `KeyError`; a zero length or
self-score raises `ZeroDivisionError`). -/
def computeMetrics (ns : NodeMap) (h : Hit) : Except Err EdgeData :=
  if hasNode ns h.qry ∧ hasNode ns h.ref then
    match pydiv h.bit (min h.qlen h.rlen) with
    | .error e => .error e
    | .ok bpr =>
      match getSbs ns h.qry with
      | .error e => .error e
      | .ok qsbs =>
        match getSbs ns h.ref with
        | .error e => .error e
        | .ok rsbs =>
          match pydiv h.bit (min qsbs rsbs) with
          | .error e => .error e
          | .ok bsr => .ok ⟨.num h.evl, h.bit, some bpr, some bsr⟩
  else
    .ok ⟨.num h.evl, h.bit, none, none⟩

/-- Overwriting the stored metrics key by key
(`for met in metrics.keys(): met_grf[qry][ref][met] = metrics[met]`,
lines 244-245): keys absent from the new dictionary keep their old
values. -/
def overrideEdge (old new : EdgeData) : EdgeData :=
  ⟨new.evl, new.bit, new.bpr.or old.bpr, new.bsr.or old.bsr⟩

/-- One iteration of the loop at lines 208-245. -/
def metStep (cols : Cols) (st : MState) (l : Line) : Except Err MState :=
  match l with
  | [] => .ok st
  | t0 :: _ =>
    match t0.s.data with
    | [] => .error .indexError
    | c :: _ =>
      if c = '#' then .ok st
      else
        match parseHit cols l t0 with
        | .error e => .error e
        | .ok h =>
          match computeMetrics st.nodes h with
          | .error e => .error e
          | .ok m =>
            match findEdge st.edges h.qry h.ref with
            | none =>
              .ok ⟨ensureNode (ensureNode st.nodes h.qry) h.ref,
                   st.edges ++ [(nkey h.qry h.ref, m)]⟩
            | some old =>
              if m.bit > old.bit then
                .ok ⟨st.nodes, aset st.edges (nkey h.qry h.ref) (overrideEdge old m)⟩
              else
                .ok st

def getMetrics (cols : Cols) (st0 : MState) (ls : List Line) :
    Except Err MState :=
  ls.foldlM (metStep cols) st0

/-! ## `compute_organism_averages` (lines 248-284)

`main` always calls the remaining phases with
`metrics = ['evl', 'bit', 'bpr', 'bsr']` (line 46); the loops
`for met in metrics` are unrolled over this list in that order.  The
function accumulates per-organism-pair counts and sums and, after
accumulating an edge, replaces its `evl` by `None` when it equals `181.`
(lines 280-282). -/

/-- The four metric names, in the order of the `metrics` list of
`main` (line 46). -/
inductive Met where
  | evl : Met
  | bit : Met
  | bpr : Met
  | bsr : Met
deriving DecidableEq, Repr

/-- One organism-pair aggregate: `cnt`, the four `<met>_sum` entries and
the four `<met>_avg` entries (`none` = Python `None`, the initial value
at line 278). -/
structure OrgData where
  cnt : ℕ
  evl_sum : ℚ
  bit_sum : ℚ
  bpr_sum : ℚ
  bsr_sum : ℚ
  evl_avg : Option ℚ
  bit_avg : Option ℚ
  bpr_avg : Option ℚ
  bsr_avg : Option ℚ
deriving DecidableEq, Repr

abbrev OrgMap := List ((String × String) × OrgData)

def OrgData.sumOf (d : OrgData) : Met → ℚ
  | .evl => d.evl_sum
  | .bit => d.bit_sum
  | .bpr => d.bpr_sum
  | .bsr => d.bsr_sum

def OrgData.avgOf (d : OrgData) : Met → Option ℚ
  | .evl => d.evl_avg
  | .bit => d.bit_avg
  | .bpr => d.bpr_avg
  | .bsr => d.bsr_avg

/-- Organism pair of an edge key (both `split(idchar)[0]` projections,
lines 267-268, as a canonical unordered pair). -/
def orgKey (idchar : Char) (k : String × String) : String × String :=
  nkey (orgOf idchar k.1) (orgOf idchar k.2)

/-- Reading `edata['evl']` for the `+=` at line 273: adding `None` (or a
special float, which cannot occur before normalization) raises
`TypeError`. -/
def pyToQ (v : PyVal) : Except Err ℚ :=
  match v with
  | .num q => .ok q
  | _ => .error .typeError

/-- Reading `edata[met]` for `met` in `['bpr', 'bsr']`: `KeyError` when
the edge lacks the key. -/
def reqKey (name : String) (v : Option ℚ) : Except Err ℚ :=
  match v with
  | some q => .ok q
  | none => .error (.keyError name)

/-- The four metric values of an edge as read by the sum loop at
lines 272-273 / 276-277, in `metrics` order. -/
def edgeVals (d : EdgeData) : Except Err (ℚ × ℚ × ℚ × ℚ) :=
  match pyToQ d.evl with
  | .error e => .error e
  | .ok ev =>
    match reqKey "bpr" d.bpr with
    | .error e => .error e
    | .ok bp =>
      match reqKey "bsr" d.bsr with
      | .error e => .error e
      | .ok bs => .ok (ev, d.bit, bp, bs)

/-- Folding one edge into `org_avgs` (lines 270-278). -/
def aggEdge (idchar : Char) (orgs : OrgMap) (k : String × String)
    (d : EdgeData) : Except Err OrgMap :=
  match edgeVals d with
  | .error e => .error e
  | .ok (ev, bi, bp, bs) =>
    let p := orgKey idchar k
    match alookup orgs p with
    | some od =>
      .ok (aset orgs p
        { od with
          cnt := od.cnt + 1
          evl_sum := od.evl_sum + ev
          bit_sum := od.bit_sum + bi
          bpr_sum := od.bpr_sum + bp
          bsr_sum := od.bsr_sum + bs })
    | none =>
      .ok (orgs ++ [(p, ⟨1, ev, bi, bp, bs, none, none, none, none⟩)])

/-- Marking at lines 280-282: an edge whose `evl` equals `181.` has it
replaced by `None`. -/
def markPending (d : EdgeData) : EdgeData :=
  if d.evl = .num 181 then { d with evl := .null } else d

/-- The loop at lines 266-282 over all edges: produces the mutated edge
list and the organism aggregate graph. -/
def aggGo (idchar : Char) : EdgeMap → OrgMap → Except Err (EdgeMap × OrgMap)
  | [], orgs => .ok ([], orgs)
  | (k, d) :: es, orgs =>
    match aggEdge idchar orgs k d with
    | .error e => .error e
    | .ok orgs1 =>
      match aggGo idchar es orgs1 with
      | .error e => .error e
      | .ok (es1, orgsF) => .ok ((k, markPending d) :: es1, orgsF)

def computeOrganismAverages (idchar : Char) (m : MState) :
    Except Err (EdgeMap × OrgMap) :=
  aggGo idchar m.edges []

/-! ## `compute_global_averags` (lines 287-315)

The synthetic `'global'` node starts with `cnt = 0` and all four sums
`0.` (lines 300-301); each organism-pair edge adds its count and sums and
receives its four averages (`sum / cnt`); finally the global averages are
`global sum / global cnt` - `ZeroDivisionError` when the graph has no
edges. -/

/-- Folding one organism pair into the global totals and computing its
averages (lines 303-309). -/
def globEdge (glob od : OrgData) : Except Err (OrgData × OrgData) :=
  match pydiv od.evl_sum od.cnt with
  | .error e => .error e
  | .ok ae =>
    match pydiv od.bit_sum od.cnt with
    | .error e => .error e
    | .ok ab =>
      match pydiv od.bpr_sum od.cnt with
      | .error e => .error e
      | .ok ap =>
        match pydiv od.bsr_sum od.cnt with
        | .error e => .error e
        | .ok as_ =>
          .ok ({ glob with
                   cnt := glob.cnt + od.cnt
                   evl_sum := glob.evl_sum + od.evl_sum
                   bit_sum := glob.bit_sum + od.bit_sum
                   bpr_sum := glob.bpr_sum + od.bpr_sum
                   bsr_sum := glob.bsr_sum + od.bsr_sum },
               { od with
                   evl_avg := some ae
                   bit_avg := some ab
                   bpr_avg := some ap
                   bsr_avg := some as_ })

def globGo (glob : OrgData) : OrgMap → Except Err (OrgMap × OrgData)
  | [] => .ok ([], glob)
  | (p, od) :: os =>
    match globEdge glob od with
    | .error e => .error e
    | .ok (glob1, od1) =>
      match globGo glob1 os with
      | .error e => .error e
      | .ok (os1, globF) => .ok ((p, od1) :: os1, globF)

/-- The `'global'` node as created at lines 300-301. -/
def glob0 : OrgData := ⟨0, 0, 0, 0, 0, none, none, none, none⟩

def computeGlobalAverags (orgs : OrgMap) : Except Err (OrgMap × OrgData) :=
  match globGo glob0 orgs with
  | .error e => .error e
  | .ok (orgs1, glob) =>
    match pydiv glob.evl_sum glob.cnt with
    | .error e => .error e
    | .ok ge =>
      match pydiv glob.bit_sum glob.cnt with
      | .error e => .error e
      | .ok gb =>
        match pydiv glob.bpr_sum glob.cnt with
        | .error e => .error e
        | .ok gp =>
          match pydiv glob.bsr_sum glob.cnt with
          | .error e => .error e
          | .ok gs =>
            .ok (orgs1,
                 { glob with
                     evl_avg := some ge
                     bit_avg := some gb
                     bpr_avg := some gp
                     bsr_avg := some gs })

/-! ## `normalize_bit_score_ratios` (lines 318-365)

First loop (lines 336-352): for every edge and every metric (the `evl` of
an edge that was set to `None` is skipped), the stored value is multiplied
by `scale = glb_avg[met] / org_avgs[qry_org][ref_org][met+'_avg']`.
While handling `evl` the minimum scale (`min_scl`, initially
`float("inf")`) and the maximum of the just-scaled `evl` values
(`max_evl`, initially `float("-inf")`; line 351 reads `edata['evl']`
after the in-place multiplication at line 346, so the scaled value) are
tracked; both are modelled as `Option ℚ`, `none` standing for the
untouched infinity.

Between the loops (lines 355-357): `zro_evl = (max_evl + 10) / min_scl`,
which is `nan` (`-inf / inf`) when no edge had an ordinary `evl`.

Second loop (lines 359-365): every edge whose stored `evl` is falsy
(`None`, or a value equal to `0.0`) receives `zro_evl * scale`, where the
scale is computed from the loop variable `met`, which still holds
`'bsr'`, the last entry of the `metrics` list, after the first loop. -/

/-- `scale = glb_avg[met] / org_avgs[qry_org][ref_org][met+'_avg']`
(line 345): dividing by a pair average that is still `None` raises
`TypeError`; a pair missing from `org_avgs` raises `KeyError`. -/
def scaleOf (glob : OrgData) (orgs : OrgMap) (p : String × String)
    (met : Met) : Except Err ℚ :=
  match glob.avgOf met with
  | none => .error .typeError
  | some gv =>
    match alookup orgs p with
    | none => .error (.keyError "org_pair")
    | some od =>
      match od.avgOf met with
      | none => .error .typeError
      | some pav => pydiv gv pav

/-- In-place multiplication of a stored `evl` value by a float:
`None` raises `TypeError`; special floats follow IEEE sign rules. -/
def pyMulQ (v : PyVal) (s : ℚ) : Except Err PyVal :=
  match v with
  | .null => .error .typeError
  | .nan => .ok .nan
  | .pinf => .ok (if s > 0 then .pinf else if s < 0 then .ninf else .nan)
  | .ninf => .ok (if s > 0 then .ninf else if s < 0 then .pinf else .nan)
  | .num q => .ok (.num (q * s))

/-- `scale < min_scl` with `min_scl` possibly still `float("inf")`. -/
def ltOpt (s : ℚ) (mn : Option ℚ) : Bool :=
  match mn with
  | none => true
  | some m => s < m

/-- Update of `max_evl` by `if edata['evl'] > max_evl` (lines 351-352):
the compared value is the scaled `evl`.  A `nan` or `-inf` value never
compares greater; a `+inf` value cannot reach this point in the program
(edge `evl` values are finite floats before normalization) and is mapped
to an error. -/
def maxUpd (v : PyVal) (mx : Option ℚ) : Except Err (Option ℚ) :=
  match v with
  | .null => .error .typeError
  | .nan => .ok mx
  | .ninf => .ok mx
  | .pinf => .error .typeError
  | .num q =>
    match mx with
    | none => .ok (some q)
    | some M => .ok (if q > M then some q else mx)

/-- The effect of the first loop's body on one edge's stored metrics
(lines 340-346), with the `for met in metrics` loop unrolled over
`['evl', 'bit', 'bpr', 'bsr']`.  For each metric the scale is computed
first, then the stored value is read and multiplied (a missing
`bpr`/`bsr` key raises `KeyError` at the read). -/
def pass1Edge (glob : OrgData) (orgs : OrgMap) (idchar : Char)
    (k : String × String) (d : EdgeData) : Except Err EdgeData :=
  let p := orgKey idchar k
  match (if d.evl = PyVal.null then Except.ok d
         else
           match scaleOf glob orgs p .evl with
           | .error e => Except.error e
           | .ok s =>
             match pyMulQ d.evl s with
             | .error e => Except.error e
             | .ok v => Except.ok { d with evl := v } : Except Err EdgeData) with
  | .error e => .error e
  | .ok d1 =>
    match scaleOf glob orgs p .bit with
    | .error e => .error e
    | .ok sb =>
      let d2 := { d1 with bit := d1.bit * sb }
      match scaleOf glob orgs p .bpr with
      | .error e => .error e
      | .ok sp =>
        match reqKey "bpr" d2.bpr with
        | .error e => .error e
        | .ok vp =>
          let d3 := { d2 with bpr := some (vp * sp) }
          match scaleOf glob orgs p .bsr with
          | .error e => .error e
          | .ok ss =>
            match reqKey "bsr" d3.bsr with
            | .error e => .error e
            | .ok vs => .ok { d3 with bsr := some (vs * ss) }

/-- The effect of the first loop's body on the `min_scl` / `max_evl`
trackers (lines 348-352): updated only in the `evl` iteration, which is
skipped for a pending edge. -/
def pass1Acc (glob : OrgData) (orgs : OrgMap) (idchar : Char)
    (k : String × String) (d : EdgeData) (mn mx : Option ℚ) :
    Except Err (Option ℚ × Option ℚ) :=
  if d.evl = PyVal.null then .ok (mn, mx)
  else
    match scaleOf glob orgs (orgKey idchar k) .evl with
    | .error e => .error e
    | .ok s =>
      match pyMulQ d.evl s with
      | .error e => .error e
      | .ok v =>
        match maxUpd v mx with
        | .error e => .error e
        | .ok mx1 => .ok (if ltOpt s mn then some s else mn, mx1)

/-- The first loop (lines 336-352). -/
def pass1 (glob : OrgData) (orgs : OrgMap) (idchar : Char) :
    EdgeMap → Option ℚ → Option ℚ →
    Except Err (EdgeMap × Option ℚ × Option ℚ)
  | [], mn, mx => .ok ([], mn, mx)
  | (k, d) :: es, mn, mx =>
    match pass1Edge glob orgs idchar k d with
    | .error e => .error e
    | .ok d1 =>
      match pass1Acc glob orgs idchar k d mn mx with
      | .error e => .error e
      | .ok (mn1, mx1) =>
        match pass1 glob orgs idchar es mn1 mx1 with
        | .error e => .error e
        | .ok (es1, mnF, mxF) => .ok ((k, d1) :: es1, mnF, mxF)

/-- `zro_evl = (max_evl + gap) / min_scl` with `gap = 10`
(lines 355-357), on the extended floats: `(-inf + 10) / inf = nan` when
neither tracker was ever set, `finite / inf = 0.0`, `-inf / finite`
keeps IEEE signs, and a zero `min_scl` raises `ZeroDivisionError`. -/
def zroCalc (mx mn : Option ℚ) : Except Err PyVal :=
  match mx, mn with
  | none, none => .ok .nan
  | none, some m =>
    if m = 0 then .error .zeroDivisionError
    else .ok (if m > 0 then .ninf else .pinf)
  | some _, none => .ok (.num 0)
  | some M, some m =>
    if m = 0 then .error .zeroDivisionError
    else .ok (.num ((M + 10) / m))

/-- Python truthiness test `not met_grf[qry_id][ref_id]['evl']`
(line 361): `None` and `0.0` are falsy; `nan` and the infinities are
truthy. -/
def isFalsy (v : PyVal) : Bool :=
  match v with
  | .null => true
  | .num q => q = 0
  | _ => false

/-- The second loop's body (lines 359-365): an edge with falsy `evl` is
rewritten with `zro_evl * scale`, the scale being computed from the stale
loop variable `met`, which holds `'bsr'` (the last entry of `metrics`)
after the first loop. -/
def pass2Edge (glob : OrgData) (orgs : OrgMap) (idchar : Char)
    (zro : PyVal) (k : String × String) (d : EdgeData) :
    Except Err EdgeData :=
  if isFalsy d.evl then
    match scaleOf glob orgs (orgKey idchar k) .bsr with
    | .error e => .error e
    | .ok s =>
      match pyMulQ zro s with
      | .error e => .error e
      | .ok v => .ok { d with evl := v }
  else .ok d

/-- The second loop (lines 359-365). -/
def pass2 (glob : OrgData) (orgs : OrgMap) (idchar : Char) (zro : PyVal) :
    EdgeMap → Except Err EdgeMap
  | [] => .ok []
  | (k, d) :: es =>
    match pass2Edge glob orgs idchar zro k d with
    | .error e => .error e
    | .ok d1 =>
      match pass2 glob orgs idchar zro es with
      | .error e => .error e
      | .ok es1 => .ok ((k, d1) :: es1)

def normalizeBitScoreRatios (idchar : Char) (es : EdgeMap) (orgs : OrgMap)
    (glob : OrgData) : Except Err EdgeMap :=
  match pass1 glob orgs idchar es none none with
  | .error e => .error e
  | .ok (es1, mn, mx) =>
    match zroCalc mx mn with
    | .error e => .error e
    | .ok z => pass2 glob orgs idchar z es1

/-! ## The pipeline of `main` (lines 12-57)

`main` runs the self-score pass, rewinds the input, runs the metric pass
on the same lines, prints the raw graph (I/O, not modelled), aggregates,
computes global averages and normalizes.  All intermediate artifacts are
returned so that theorems can speak about each stage. -/

structure RunOut where
  selfSt : SState
  raw : MState
  marked : EdgeMap
  orgs : OrgMap
  glob : OrgData
  final : EdgeMap
deriving DecidableEq, Repr

def pipeline (cols : Cols) (idchar : Char) (ls : List Line) :
    Except Err RunOut :=
  match getSelfBitScoresAndOrgIds cols.bscol idchar ls with
  | .error e => .error e
  | .ok sst =>
    match getMetrics cols ⟨sst.nodes, []⟩ ls with
    | .error e => .error e
    | .ok m =>
      match computeOrganismAverages idchar m with
      | .error e => .error e
      | .ok (marked, orgs) =>
        match computeGlobalAverags orgs with
        | .error e => .error e
        | .ok (orgs1, glob) =>
          match normalizeBitScoreRatios idchar marked orgs1 glob with
          | .error e => .error e
          | .ok finEs => .ok ⟨sst, m, marked, orgs1, glob, finEs⟩

/-! ## Derived notions used in theorem statements -/

/-- The numeric value an edge carries for a metric, when it has one. -/
def getQ (d : EdgeData) : Met → Option ℚ
  | .evl => match d.evl with | .num q => some q | _ => none
  | .bit => some d.bit
  | .bpr => d.bpr
  | .bsr => d.bsr

/-- The edges of the metric graph lying between one pair of organisms. -/
def pairEdges (idchar : Char) (es : EdgeMap) (p : String × String) :
    EdgeMap :=
  es.filter (fun kd => decide (orgKey idchar kd.1 = p))

/-- Average of the final (scaled) values of metric `m` over the edges
between organism pair `p`, excluding edges pending E-value normalization
(those whose `evl` in the aggregated graph is `None`): the quantity the
normalization claim is about.  `marked` is the graph as left by
`compute_organism_averages`, `final` the normalized graph; `none` when a
needed value is absent or no edge qualifies. -/
def scaledPairAvg (idchar : Char) (marked final : EdgeMap)
    (p : String × String) (m : Met) : Option ℚ :=
  let keys := (marked.filter
      (fun kd => decide (orgKey idchar kd.1 = p ∧ kd.2.evl ≠ PyVal.null))).map
      Prod.fst
  let vals := keys.filterMap (fun k => (alookup final k).bind (fun d => getQ d m))
  if vals.length = keys.length ∧ keys.length ≠ 0 then
    some (vals.sum / keys.length)
  else none

/-- The numeric value an edge carries for metric `m` as summed by the
aggregation loop (lines 272-277), defaulting to `0` where the stored
value is absent; the aggregation raises before any default would be
used. -/
def mval (d : EdgeData) : Met → ℚ
  | .evl => match d.evl with | .num q => q | _ => 0
  | .bit => d.bit
  | .bpr => d.bpr.getD 0
  | .bsr => d.bsr.getD 0

/-- Edge count recorded for organism pair `p` (0 when the pair is not in
the aggregate graph). -/
def pairCnt (orgs : OrgMap) (p : String × String) : ℕ :=
  match alookup orgs p with
  | some od => od.cnt
  | none => 0

/-- Metric sum recorded for organism pair `p` (0 when the pair is not in
the aggregate graph). -/
def pairSum (orgs : OrgMap) (p : String × String) (m : Met) : ℚ :=
  match alookup orgs p with
  | some od => od.sumOf m
  | none => 0

/-- The per-pair average assignment of `compute_global_averags`
(lines 303-309): each `<met>_avg` becomes `<met>_sum / cnt`. -/
def setAvgs (od : OrgData) : OrgData :=
  { od with
      evl_avg := some (od.evl_sum / od.cnt)
      bit_avg := some (od.bit_sum / od.cnt)
      bpr_avg := some (od.bpr_sum / od.cnt)
      bsr_avg := some (od.bsr_sum / od.cnt) }

/-- Column `i` is missing or its text is rejected by `float()`. -/
def badCol (l : Line) (i : ℕ) : Bool :=
  match l[i]? with
  | none => true
  | some t => t.val.isNone

/-- Column `i` is missing or its text is rejected by `Decimal()`. -/
def badColDec (l : Line) (i : ℕ) : Bool :=
  match l[i]? with
  | none => true
  | some t => t.nld.isNone

/-- A line that is neither blank nor a comment but malformed: too few
columns, or a non-numeric value in the E-value, bit-score or length
columns. -/
def malformedLine (cols : Cols) (l : Line) : Bool :=
  match l with
  | [] => false
  | t0 :: _ =>
    match t0.s.data with
    | [] => false
    | c :: _ =>
      decide (c ≠ '#') &&
        (l[1]?.isNone || badCol l cols.qlcol || badCol l cols.slcol ||
          badCol l cols.bscol || badColDec l cols.evcol)

/-- Classification of a line by the self-score pass: `some (id, bit)`
when the line is a well-formed record whose first two fields are
identical. -/
def classifySelf (bscol : ℕ) (l : Line) : Option (String × ℚ) :=
  match l with
  | [] => none
  | t0 :: _ =>
    match t0.s.data with
    | [] => none
    | c :: _ =>
      if c = '#' then none
      else
        match l[1]? with
        | none => none
        | some t1 =>
          if t0.s = t1.s then
            match l[bscol]? with
            | none => none
            | some tb => tb.val.map (fun b => (t0.s, b))
          else none

/-- The bit scores of all self-hit records for one identifier, in input
order. -/
def selfBits (bscol : ℕ) (id : String) (ls : List Line) : List ℚ :=
  ls.filterMap (fun l => (classifySelf bscol l).bind
    (fun ib => if ib.1 = id then some ib.2 else none))

/-- The recorded self-score of an identifier, when its node exists and
carries the `sbs` attribute. -/
def sbsOf (ns : NodeMap) (id : String) : Option ℚ :=
  match getSbs ns id with
  | .ok q => some q
  | .error _ => none

/-- The self-score update of lines 171-174: first observation stores the
bit score, later observations keep the larger value. -/
def mergeSelf (cur : Option ℚ) (b : ℚ) : ℚ :=
  match cur with
  | none => b
  | some c => if b > c then b else c

/-- Pointwise order on optional self-scores: an absent score is below
everything, a present score never decreases. -/
def optLe (a b : Option ℚ) : Prop :=
  ∀ x, a = some x → ∃ y, b = some y ∧ x ≤ y

/-! ## Concrete inputs used by witnesses and counterexamples

Tokens carry the raw text, the `float()` value, and the
`float(-Decimal(.).log10())` value; all numeric fields are powers of ten
so that the logarithm is exact.  Lines use compact column positions
`evcol=2, bscol=3, qlcol=4, slcol=5` (the positions are configurable in
the program; `tcols` plays the role of the parsed command-line
options). -/

def idTok (s : String) : Tok := ⟨s, none, none⟩

/-- The field `0.0`: `float` gives `0.0`, `Decimal(.).log10()` gives
`-Infinity`, so the negated conversion is `inf`. -/
def tokEv0 : Tok := ⟨"0.0", some 0, some .inf⟩

/-- The field `1`: value 1, `-log10 = 0`. -/
def tokN1 : Tok := ⟨"1", some 1, some (.fin 0)⟩

/-- The field `10`: value 10, `-log10 = -1`. -/
def tokN10 : Tok := ⟨"10", some 10, some (.fin (-1))⟩

/-- The field `100`: value 100, `-log10 = -2`. -/
def tokN100 : Tok := ⟨"100", some 100, some (.fin (-2))⟩

/-- The field `1e-01`: value 1/10, `-log10 = 1`. -/
def tokEvT : Tok := ⟨"1e-01", some (1/10), some (.fin 1)⟩

/-- The field `1e-02`: value 1/100, `-log10 = 2`. -/
def tokEvC : Tok := ⟨"1e-02", some (1/100), some (.fin 2)⟩

/-- The field `1e-03`: value 1/1000, `-log10 = 3`. -/
def tokEvM : Tok := ⟨"1e-03", some (1/1000), some (.fin 3)⟩

def tcols : Cols := ⟨2, 3, 4, 5⟩

def mkLine (q r : String) (ev bit ql sl : Tok) : Line :=
  [idTok q, idTok r, ev, bit, ql, sl]

/-- Input for the C1 counterexample: two organisms `A`, `B`, four
self-hits (E-value 0.1, bit 1), one saturated cross hit
`A|1 - B|1` (E-value 0) and one ordinary cross hit `A|2 - B|2`
(E-value 0.1). -/
def inPend : List Line :=
  [ mkLine "A|1" "A|1" tokEvT tokN1 tokN1 tokN1,
    mkLine "A|2" "A|2" tokEvT tokN1 tokN1 tokN1,
    mkLine "B|1" "B|1" tokEvT tokN1 tokN1 tokN1,
    mkLine "B|2" "B|2" tokEvT tokN1 tokN1 tokN1,
    mkLine "A|1" "B|1" tokEv0 tokN1 tokN1 tokN1,
    mkLine "A|2" "B|2" tokEvT tokN1 tokN1 tokN1 ]

/-- Input for the C4 counterexample: four organisms; the saturated hit
`A|1 - B|1` has bit score 100 against self-scores 1, giving its organism
pair a large `bsr` average and hence a small stale-metric scale factor in
the second normalization pass. -/
def inSat : List Line :=
  [ mkLine "A|1" "A|1" tokEvT tokN1 tokN1 tokN1,
    mkLine "B|1" "B|1" tokEvT tokN1 tokN1 tokN1,
    mkLine "C|1" "C|1" tokEvT tokN1 tokN1 tokN1,
    mkLine "D|1" "D|1" tokEvT tokN1 tokN1 tokN1,
    mkLine "A|1" "B|1" tokEv0 tokN100 tokN1 tokN1,
    mkLine "C|1" "D|1" tokEvT tokN1 tokN1 tokN1 ]

/-- Input for the C9 counterexample: every record, self-hits included,
reports an E-value of exactly zero, so every edge of the graph is pending
E-value normalization. -/
def inAllPend : List Line :=
  [ mkLine "A|1" "A|1" tokEv0 tokN1 tokN1 tokN1,
    mkLine "B|1" "B|1" tokEv0 tokN1 tokN1 tokN1,
    mkLine "A|1" "B|1" tokEv0 tokN1 tokN1 tokN1 ]

/-- Input for the C10 witness: the cross hit `A|1 - B|1` reports an
E-value of exactly 1, so its raw `evl` is `-log10(1) = 0`; the second
cross hit keeps the organism-pair `evl` average nonzero. -/
def inZeroEvl : List Line :=
  [ mkLine "A|1" "A|1" tokEvT tokN1 tokN1 tokN1,
    mkLine "A|2" "A|2" tokEvT tokN1 tokN1 tokN1,
    mkLine "B|1" "B|1" tokEvT tokN1 tokN1 tokN1,
    mkLine "A|1" "B|1" tokN1 tokN1 tokN1 tokN1,
    mkLine "A|2" "B|1" tokEvC tokN1 tokN1 tokN1 ]

/-- Input for the C6 counterexample: a single cross hit whose endpoints
never appear in a self-hit, so its edge lacks `bpr`/`bsr`. -/
def inNoSelf : List Line :=
  [ mkLine "A|1" "B|1" tokEvT tokN1 tokN1 tokN1 ]

/-- Inputs for the C8 counterexample: a malformed record (non-numeric
query-length field) preceded by zero resp. one well-formed record. -/
def badLine : Line :=
  mkLine "A|1" "B|1" tokEvT tokN1 (idTok "abc") tokN1

def inBad1 : List Line := [badLine]

def inBad2 : List Line :=
  [ mkLine "A|1" "A|1" tokEvT tokN1 tokN1 tokN1, badLine ]

/-- Input for the C3 witness: two self-hits for `A|1` (bit scores 1 and
10) among a blank line, a comment line and a cross hit. -/
def inSelfTwo : List Line :=
  [ mkLine "A|1" "A|1" tokEvT tokN1 tokN1 tokN1,
    [],
    [idTok "#c", idTok "x"],
    mkLine "A|1" "A|1" tokEvT tokN10 tokN1 tokN1,
    mkLine "A|1" "B|1" tokEvT tokN100 tokN1 tokN1 ]

/-- Node map for the C2 witness: self-scores recorded by the first
pass. -/
def nsBest : NodeMap := [("A|1", some 10), ("B|1", some 10)]

/-- Input for the C2 witness: three records for the unordered pair
`{A|1, B|1}` (the second in reversed orientation) with bit scores 1, 10,
10 - the maximum is first attained by the second record. -/
def inBest : List Line :=
  [ mkLine "A|1" "B|1" tokEvT tokN1 tokN1 tokN1,
    mkLine "B|1" "A|1" tokEvC tokN10 tokN1 tokN1,
    mkLine "A|1" "B|1" tokEvM tokN10 tokN1 tokN1 ]

/-- Metric-pass result of `inBest` (used by the C2 witness): the single
edge keeps the metrics of the second record, the first to attain the
maximal bit score 10. -/
def stBest : MState :=
  ⟨[("A|1", some 10), ("B|1", some 10)],
   [(("A|1", "B|1"), ⟨.num 2, 10, some 10, some 1⟩)]⟩

/-- Input for the C1 witness: two self-hits and one ordinary cross hit
`A|1 - B|1` (E-value 0.01, bit 10), so the pair `(A, B)` has one edge,
neither pending nor zero. -/
def inC1 : List Line :=
  [ mkLine "A|1" "A|1" tokEvT tokN1 tokN1 tokN1,
    mkLine "B|1" "B|1" tokEvT tokN1 tokN1 tokN1,
    mkLine "A|1" "B|1" tokEvC tokN10 tokN1 tokN1 ]

/-- The full successful run on `inC1` (used by the C1 witness). -/
def outC1 : RunOut :=
  { selfSt := { nodes := [("A|1", some 1), ("B|1", some 1)],
                orgIds := ["A", "B"] }
    raw := { nodes := [("A|1", some 1), ("B|1", some 1)],
             edges := [(("A|1", "A|1"), ⟨.num 1, 1, some 1, some 1⟩),
                       (("B|1", "B|1"), ⟨.num 1, 1, some 1, some 1⟩),
                       (("A|1", "B|1"), ⟨.num 2, 10, some 10, some 10⟩)] }
    marked := [(("A|1", "A|1"), ⟨.num 1, 1, some 1, some 1⟩),
               (("B|1", "B|1"), ⟨.num 1, 1, some 1, some 1⟩),
               (("A|1", "B|1"), ⟨.num 2, 10, some 10, some 10⟩)]
    orgs := [(("A", "A"), ⟨1, 1, 1, 1, 1, some 1, some 1, some 1, some 1⟩),
             (("B", "B"), ⟨1, 1, 1, 1, 1, some 1, some 1, some 1, some 1⟩),
             (("A", "B"),
              ⟨1, 2, 10, 10, 10, some 2, some 10, some 10, some 10⟩)]
    glob := ⟨3, 4, 12, 12, 12, some (4/3), some 4, some 4, some 4⟩
    final := [(("A|1", "A|1"), ⟨.num (4/3), 4, some 4, some 4⟩),
              (("B|1", "B|1"), ⟨.num (4/3), 4, some 4, some 4⟩),
              (("A|1", "B|1"), ⟨.num (4/3), 4, some 4, some 4⟩)] }

/-- Aggregates of the `inAllPend` run (used by the C9 witness). -/
def orgsAllPend : OrgMap :=
  [ (("A", "A"), ⟨1, 181, 1, 1, 1, some 181, some 1, some 1, some 1⟩),
    (("B", "B"), ⟨1, 181, 1, 1, 1, some 181, some 1, some 1, some 1⟩),
    (("A", "B"), ⟨1, 181, 1, 1, 1, some 181, some 1, some 1, some 1⟩) ]

def globAllPend : OrgData := ⟨3, 543, 3, 3, 3, some 181, some 1, some 1, some 1⟩

def markedAllPend : EdgeMap :=
  [ (("A|1", "A|1"), ⟨.null, 1, some 1, some 1⟩),
    (("B|1", "B|1"), ⟨.null, 1, some 1, some 1⟩),
    (("A|1", "B|1"), ⟨.null, 1, some 1, some 1⟩) ]

def outAllPend : EdgeMap :=
  [ (("A|1", "A|1"), ⟨.nan, 1, some 1, some 1⟩),
    (("B|1", "B|1"), ⟨.nan, 1, some 1, some 1⟩),
    (("A|1", "B|1"), ⟨.nan, 1, some 1, some 1⟩) ]

/-- Aggregates of the `inZeroEvl` run (used by the C10 witness). -/
def orgsZero : OrgMap :=
  [ (("A", "A"), ⟨2, 2, 2, 2, 2, some 1, some 1, some 1, some 1⟩),
    (("B", "B"), ⟨1, 1, 1, 1, 1, some 1, some 1, some 1, some 1⟩),
    (("A", "B"), ⟨2, 2, 2, 2, 2, some 1, some 1, some 1, some 1⟩) ]

def globZero : OrgData := ⟨5, 5, 5, 5, 5, some 1, some 1, some 1, some 1⟩

def markedZero : EdgeMap :=
  [ (("A|1", "A|1"), ⟨.num 1, 1, some 1, some 1⟩),
    (("A|2", "A|2"), ⟨.num 1, 1, some 1, some 1⟩),
    (("B|1", "B|1"), ⟨.num 1, 1, some 1, some 1⟩),
    (("A|1", "B|1"), ⟨.num 0, 1, some 1, some 1⟩),
    (("A|2", "B|1"), ⟨.num 2, 1, some 1, some 1⟩) ]

def outZero : EdgeMap :=
  [ (("A|1", "A|1"), ⟨.num 1, 1, some 1, some 1⟩),
    (("A|2", "A|2"), ⟨.num 1, 1, some 1, some 1⟩),
    (("B|1", "B|1"), ⟨.num 1, 1, some 1, some 1⟩),
    (("A|1", "B|1"), ⟨.num 12, 1, some 1, some 1⟩),
    (("A|2", "B|1"), ⟨.num 2, 1, some 1, some 1⟩) ]

/-- Classification of a line by the metric pass: `some h` when the line
is a non-blank, non-comment record that parses (lines 208-227); this part
of `get_metrics` does not depend on the graph state. -/
def classifyHit (cols : Cols) (l : Line) : Option Hit :=
  match l with
  | [] => none
  | t0 :: _ =>
    match t0.s.data with
    | [] => none
    | c :: _ =>
      if c = '#' then none
      else
        match parseHit cols l t0 with
        | .ok h => some h
        | .error _ => none

/-- The metric dictionaries of the records for one unordered pair, each
computed (as in lines 218-235) with the node store as it stood when the
record was processed; records that fail the metric computation are
dropped (they abort a real run). -/
def histMetrics (cols : Cols) (q s : String) :
    NodeMap → List Line → List EdgeData
  | _, [] => []
  | ns, l :: ls =>
    match classifyHit cols l with
    | none => histMetrics cols q s ns ls
    | some h =>
      if nkey h.qry h.ref = nkey q s then
        match computeMetrics ns h with
        | .ok m =>
          m :: histMetrics cols q s (ensureNode (ensureNode ns h.qry) h.ref) ls
        | .error _ =>
          histMetrics cols q s (ensureNode (ensureNode ns h.qry) h.ref) ls
      else histMetrics cols q s (ensureNode (ensureNode ns h.qry) h.ref) ls

/-- The best-hit policy of lines 237-245 as a fold over the successive
metric dictionaries of one pair: the first record creates the edge, a
later record overwrites it (key by key) only when its bit score is
strictly greater. -/
def keepBest : Option EdgeData → List EdgeData → Option EdgeData
  | acc, [] => acc
  | acc, m :: ms =>
    keepBest (some (match acc with
      | none => m
      | some e => if m.bit > e.bit then overrideEdge e m else e)) ms

/-- Reference selection: the first entry attaining the maximal bit
score, tracked from an initial candidate. -/
def firstMax2 (e : EdgeData) : List EdgeData → EdgeData
  | [] => e
  | m :: ms => firstMax2 (if m.bit > e.bit then m else e) ms

/-- Invariant of the metric graph state: edge keys are distinct
(NetworkX holds at most one edge per unordered pair) and every edge
endpoint is a node (`add_edge` inserts missing endpoints). -/
def InvM (st : MState) : Prop :=
  (st.edges.map Prod.fst).Nodup ∧
  ∀ kd ∈ st.edges,
    hasNode st.nodes kd.1.1 = true ∧ hasNode st.nodes kd.1.2 = true

/-! ## Theorems -/

/-! ### Generic `Except` / fold infrastructure -/

theorem except_bind_ok {α β : Type} {x : Except Err α} {g : α → Except Err β}
    {r : β} : (x >>= g) = .ok r ↔ ∃ a, x = .ok a ∧ g a = .ok r := by
  cases x with
  | error e => simp [Bind.bind, Except.bind]
  | ok a => simp [Bind.bind, Except.bind]

theorem foldlM_ok_mem {α σ : Type} {f : σ → α → Except Err σ} :
    ∀ {ls : List α} {s0 sF : σ}, ls.foldlM f s0 = .ok sF →
    ∀ x ∈ ls, ∃ s s1, f s x = .ok s1 := by
  intro ls
  induction ls with
  | nil => intro s0 sF h x hx; simp at hx
  | cons l ls ih =>
    intro s0 sF h x hx
    rw [List.foldlM_cons, except_bind_ok] at h
    obtain ⟨s1, hs1, hrest⟩ := h
    rcases List.mem_cons.mp hx with rfl | hx'
    · exact ⟨s0, s1, hs1⟩
    · exact ih hrest x hx'

/-! ### Node-map lemmas -/

theorem hasNode_false_find (ns : NodeMap) (id : String)
    (h : hasNode ns id = false) : ns.find? (fun e => e.1 = id) = none := by
  cases hf : ns.find? (fun e => e.1 = id) with
  | none => rfl
  | some e => simp [hasNode, hf] at h

theorem sbsOf_none_of_not_hasNode (ns : NodeMap) (id : String)
    (h : hasNode ns id = false) : sbsOf ns id = none := by
  simp [sbsOf, getSbs, hasNode_false_find ns id h]

theorem sbsOf_of_getSbs (ns : NodeMap) (id : String) (q : ℚ)
    (h : getSbs ns id = .ok q) : sbsOf ns id = some q := by
  simp [sbsOf, h]

theorem sbsOf_addNode_self (ns : NodeMap) (id : String) (b : ℚ)
    (h : hasNode ns id = false) : sbsOf (addNode ns id b) id = some b := by
  simp [sbsOf, getSbs, addNode, List.find?_append, hasNode_false_find ns id h]

theorem sbsOf_addNode_ne (ns : NodeMap) (i : String) (b : ℚ) (id : String)
    (h : i ≠ id) : sbsOf (addNode ns i b) id = sbsOf ns id := by
  simp only [sbsOf, getSbs, addNode, List.find?_append]
  cases hf : ns.find? (fun e => e.1 = id) with
  | none => simp [List.find?, h]
  | some e => simp

theorem sbsOf_setSbs_self (ns : NodeMap) (id : String) (b : ℚ)
    (h : hasNode ns id = true) : sbsOf (setSbs ns id b) id = some b := by
  induction ns with
  | nil => simp [hasNode] at h
  | cons e es ih =>
    by_cases he : e.1 = id
    · simp [setSbs, he, sbsOf, getSbs, List.find?_cons]
    · have hes : hasNode es id = true := by
        simpa [hasNode, List.find?_cons, he] using h
      simp only [setSbs, if_neg he]
      have := ih hes
      simpa [sbsOf, getSbs, List.find?_cons, he] using this

theorem sbsOf_setSbs_ne (ns : NodeMap) (i : String) (b : ℚ) (id : String)
    (h : i ≠ id) : sbsOf (setSbs ns i b) id = sbsOf ns id := by
  induction ns with
  | nil => simp [setSbs]
  | cons e es ih =>
    by_cases he : e.1 = i
    · simp only [setSbs, if_pos he]
      simp [sbsOf, getSbs, List.find?_cons, he, h]
    · simp only [setSbs, if_neg he]
      by_cases hid : e.1 = id
      · simp [sbsOf, getSbs, List.find?_cons, hid]
      · simpa [sbsOf, getSbs, List.find?_cons, hid] using ih


/-! ### The self-score pass, step by step -/

/-- Effect of one `get_self_bit_scores_and_org_ids` iteration on the
stored self-score of an arbitrary identifier. -/
theorem selfStep_sbs (bscol : ℕ) (idchar : Char) (st st1 : SState) (l : Line)
    (h : selfStep bscol idchar st l = .ok st1) (id : String) :
    sbsOf st1.nodes id =
      match classifySelf bscol l with
      | some (i, b) =>
        if i = id then some (mergeSelf (sbsOf st.nodes id) b)
        else sbsOf st.nodes id
      | none => sbsOf st.nodes id := by
  cases l with
  | nil =>
    obtain rfl : st = st1 := by simpa [selfStep] using h
    simp [classifySelf]
  | cons t0 rest =>
    cases hd : t0.s.data with
    | nil => simp [selfStep, hd] at h
    | cons c cs =>
      by_cases hc : c = '#'
      · obtain rfl : st = st1 := by simpa [selfStep, hd, hc] using h
        simp [classifySelf, hd, hc]
      · cases h1 : (t0 :: rest)[1]? with
        | none => simp [selfStep, hd, hc, colTok, h1] at h
        | some t1 =>
          by_cases hqs : t0.s = t1.s
          · cases hb : (t0 :: rest)[bscol]? with
            | none => simp [selfStep, hd, hc, colTok, h1, hb, if_pos hqs] at h
            | some tb =>
              cases hv : tb.val with
              | none =>
                simp [selfStep, hd, hc, colTok, h1, hb, if_pos hqs, toFloat, hv] at h
              | some bit =>
                have hclass : classifySelf bscol (t0 :: rest) =
                    some (t0.s, bit) := by
                  simp [classifySelf, hd, hc, h1, if_pos hqs, hb, hv]
                rw [hclass]
                show sbsOf st1.nodes id =
                  if t0.s = id then
                    some (mergeSelf (sbsOf st.nodes id) bit)
                  else sbsOf st.nodes id
                cases hn : hasNode st.nodes t0.s with
                | true =>
                  cases hg : getSbs st.nodes t0.s with
                  | error e =>
                    simp [selfStep, hd, hc, colTok, h1, hb, if_pos hqs,
                      toFloat, hv, hn, hg] at h
                  | ok sbs =>
                    have hcur := sbsOf_of_getSbs st.nodes t0.s sbs hg
                    by_cases hgt : bit > sbs
                    · have hst : SState.mk (setSbs st.nodes t0.s bit)
                          (insertSet st.orgIds (orgOf idchar t0.s)) = st1 := by
                        simpa [selfStep, hd, hc, colTok, h1, hb, if_pos hqs,
                          toFloat, hv, hn, hg, hgt] using h
                      obtain rfl := hst
                      by_cases hid : t0.s = id
                      · rw [if_pos hid, ← hid, hcur]
                        have : sbsOf (setSbs st.nodes t0.s bit) t0.s =
                            some bit := sbsOf_setSbs_self _ _ _ hn
                        simpa [mergeSelf, hgt] using this
                      · rw [if_neg hid]
                        exact sbsOf_setSbs_ne st.nodes t0.s bit id hid
                    · have hst : SState.mk st.nodes
                          (insertSet st.orgIds (orgOf idchar t0.s)) = st1 := by
                        simpa [selfStep, hd, hc, colTok, h1, hb, if_pos hqs,
                          toFloat, hv, hn, hg, hgt] using h
                      obtain rfl := hst
                      by_cases hid : t0.s = id
                      · rw [if_pos hid, ← hid, hcur]
                        simp [mergeSelf, hgt, hcur, ← hid]
                      · rw [if_neg hid]
                | false =>
                  have hst : SState.mk (addNode st.nodes t0.s bit)
                      (insertSet st.orgIds (orgOf idchar t0.s)) = st1 := by
                    simpa [selfStep, hd, hc, colTok, h1, hb, if_pos hqs,
                      toFloat, hv, hn] using h
                  obtain rfl := hst
                  by_cases hid : t0.s = id
                  · rw [if_pos hid, ← hid,
                      sbsOf_none_of_not_hasNode st.nodes t0.s hn]
                    simpa [mergeSelf] using sbsOf_addNode_self _ _ bit hn
                  · rw [if_neg hid]
                    exact sbsOf_addNode_ne st.nodes t0.s bit id hid
          · obtain rfl : st = st1 := by
              simpa [selfStep, hd, hc, colTok, h1, if_neg hqs] using h
            simp [classifySelf, hd, hc, h1, if_neg hqs]

/-- The stored self-score of any identifier never decreases across one
iteration. -/
theorem selfStep_mono (bscol : ℕ) (idchar : Char) (st st1 : SState)
    (l : Line) (h : selfStep bscol idchar st l = .ok st1) (id : String) :
    optLe (sbsOf st.nodes id) (sbsOf st1.nodes id) := by
  have hs := selfStep_sbs bscol idchar st st1 l h id
  intro x hx
  cases hcl : classifySelf bscol l with
  | none =>
    rw [hcl] at hs
    exact ⟨x, by rw [hs, hx], le_refl x⟩
  | some ib =>
    obtain ⟨i, b⟩ := ib
    rw [hcl] at hs
    have hs' : sbsOf st1.nodes id =
        if i = id then some (mergeSelf (sbsOf st.nodes id) b)
        else sbsOf st.nodes id := hs
    by_cases hid : i = id
    · rw [if_pos hid, hx] at hs'
      refine ⟨mergeSelf (some x) b, hs', ?_⟩
      by_cases hgt : b > x <;> simp [mergeSelf, hgt] <;> linarith
    · rw [if_neg hid] at hs'
      exact ⟨x, by rw [hs', hx], le_refl x⟩

/-- The self-score pass folds `mergeSelf` over the self-hit bit scores of
each identifier. -/
theorem getSelf_go (bscol : ℕ) (idchar : Char) :
    ∀ (ls : List Line) (st stF : SState),
      ls.foldlM (selfStep bscol idchar) st = .ok stF → ∀ id,
      sbsOf stF.nodes id =
        (selfBits bscol id ls).foldl (fun c b => some (mergeSelf c b))
          (sbsOf st.nodes id) := by
  intro ls
  induction ls with
  | nil =>
    intro st stF h id
    obtain rfl : st = stF := by simpa [pure, Except.pure] using h
    simp [selfBits]
  | cons l ls ih =>
    intro st stF h id
    rw [List.foldlM_cons, except_bind_ok] at h
    obtain ⟨st1, hst1, hrest⟩ := h
    have hstep := selfStep_sbs bscol idchar st st1 l hst1 id
    rw [ih st1 stF hrest id, hstep]
    cases hcl : classifySelf bscol l with
    | none => simp [selfBits, List.filterMap_cons, hcl]
    | some ib =>
      obtain ⟨i, b⟩ := ib
      by_cases hid : i = id
      · simp [selfBits, List.filterMap_cons, hcl, hid]
      · simp [selfBits, List.filterMap_cons, hcl, hid]

/-- Folding `mergeSelf` from a present value computes a maximum. -/
theorem foldl_mergeSelf_max :
    ∀ (bs : List ℚ) (c : ℚ),
      ∃ m, bs.foldl (fun cur b => some (mergeSelf cur b)) (some c) = some m ∧
        (m = c ∨ m ∈ bs) ∧ c ≤ m ∧ ∀ b ∈ bs, b ≤ m := by
  intro bs
  induction bs with
  | nil => intro c; exact ⟨c, rfl, Or.inl rfl, le_refl c, by simp⟩
  | cons b bs ih =>
    intro c
    obtain ⟨m, hfold, hmem, hle, hall⟩ := ih (mergeSelf (some c) b)
    have hcm : c ≤ mergeSelf (some c) b := by
      by_cases hgt : b > c <;> simp [mergeSelf, hgt] <;> linarith
    have hbm : b ≤ mergeSelf (some c) b := by
      by_cases hgt : b > c <;> simp [mergeSelf, hgt] <;> linarith
    refine ⟨m, by simpa [List.foldl_cons] using hfold, ?_, le_trans hcm hle, ?_⟩
    · rcases hmem with hm | hm
      · by_cases hgt : b > c
        · exact Or.inr (by simp [hm, mergeSelf, hgt])
        · exact Or.inl (by simp [hm, mergeSelf, hgt])
      · exact Or.inr (List.mem_cons_of_mem b hm)
    · intro x hx
      rcases List.mem_cons.mp hx with rfl | hx'
      · exact le_trans hbm hle
      · exact hall x hx'

/-- C3: after a successful self-score pass, every identifier with at
least one self-hit record carries as `sbs` the maximum bit score over its
self-hit records, and the stored self-score is monotonically
non-decreasing as records are processed (set on first observation,
thereafter replaced only by strictly larger values). -/
theorem self_score_is_max (bscol : ℕ) (idchar : Char) (ls : List Line)
    (st : SState) (h : getSelfBitScoresAndOrgIds bscol idchar ls = .ok st)
    (id : String) :
    (selfBits bscol id ls ≠ [] →
      ∃ m, sbsOf st.nodes id = some m ∧ m ∈ selfBits bscol id ls ∧
        ∀ b ∈ selfBits bscol id ls, b ≤ m) ∧
    (∀ pfx l s1 s2,
      getSelfBitScoresAndOrgIds bscol idchar pfx = .ok s1 →
      getSelfBitScoresAndOrgIds bscol idchar (pfx ++ [l]) = .ok s2 →
      optLe (sbsOf s1.nodes id) (sbsOf s2.nodes id)) := by
  constructor
  · intro hne
    have hgo := getSelf_go bscol idchar ls ⟨[], []⟩ st h id
    cases hbs : selfBits bscol id ls with
    | nil => exact absurd hbs hne
    | cons b bs =>
      rw [hbs] at hgo
      have h0 : sbsOf (SState.mk [] []).nodes id = none := rfl
      rw [h0, List.foldl_cons] at hgo
      obtain ⟨m, hfold, hmem, hle, hall⟩ := foldl_mergeSelf_max bs b
      have hmb : mergeSelf none b = b := rfl
      rw [hmb] at hgo
      refine ⟨m, by rw [hgo, hfold], ?_, ?_⟩
      · rcases hmem with rfl | hm
        · exact List.mem_cons_self m bs
        · exact List.mem_cons_of_mem b hm
      · intro x hx
        rcases List.mem_cons.mp hx with rfl | hx'
        · exact hle
        · exact hall x hx'
  · intro pfx l s1 s2 h1 h2
    unfold getSelfBitScoresAndOrgIds at h1 h2
    rw [List.foldlM_append, except_bind_ok] at h2
    obtain ⟨a, ha, hrest⟩ := h2
    rw [h1] at ha
    obtain rfl : s1 = a := by
      injection ha
    have hstep : selfStep bscol idchar s1 l = .ok s2 := by
      simpa using hrest
    exact selfStep_mono bscol idchar s1 s2 l hstep id

/-- Witness for C3 on `inSelfTwo`: `A|1` has self-hit bit scores 1 and
10, so its recorded self-score is 10. -/
theorem self_score_is_max_witness :
    (selfBits 3 "A|1" inSelfTwo ≠ [] →
      ∃ m, sbsOf (SState.mk [("A|1", some 10)] ["A"]).nodes "A|1" = some m ∧
        m ∈ selfBits 3 "A|1" inSelfTwo ∧
        ∀ b ∈ selfBits 3 "A|1" inSelfTwo, b ≤ m) ∧
    (∀ pfx l s1 s2,
      getSelfBitScoresAndOrgIds 3 '|' pfx = .ok s1 →
      getSelfBitScoresAndOrgIds 3 '|' (pfx ++ [l]) = .ok s2 →
      optLe (sbsOf s1.nodes "A|1") (sbsOf s2.nodes "A|1")) :=
  self_score_is_max 3 '|' inSelfTwo ⟨[("A|1", some 10)], ["A"]⟩
    (by with_unfolding_all decide) "A|1"

/-- C5 (counterexample): a record with E-value `10` - accepted by the
parser - stores `evl = -log10(10) = -1`, which is negative, refuting the
invariant that the raw `evl` is never negative. -/
theorem evl_negative_for_evalue_ten :
    ((-1 : ℚ) : ℝ) = -Real.logb 10 ((10 : ℚ) : ℝ) ∧
    evlField ⟨"10", some 10, some (.fin (-1))⟩ = .ok (-1) ∧
    ((-1 : ℚ) < 0) := by
  refine ⟨?_, rfl, by norm_num⟩
  push_cast
  rw [Real.logb_self_eq_one (by norm_num : (1:ℝ) < 10)]

/-- C5 (amended): the raw `evl` stored for an E-value `e > 0` is
`-log10 e`, an E-value of exactly zero (infinite logarithm) is clamped to
the sentinel `181.0`, and the raw `evl` is nonnegative whenever
`e ≤ 1` - but not in general, see the counterexample. -/
theorem evl_conversion_clamped_nonneg (t : Tok) (e q : ℚ)
    (hval : t.val = some e) (hnld : t.nld = some (.fin q))
    (hco : (q : ℝ) = -Real.logb 10 (e : ℝ)) (hpos : 0 < e) :
    evlField t = .ok q ∧
    (∀ t0 : Tok, t0.nld = some .inf → evlField t0 = .ok 181) ∧
    (e ≤ 1 → 0 ≤ q) := by
  refine ⟨by simp [evlField, hnld], fun t0 h0 => by simp [evlField, h0],
    fun h1 => ?_⟩
  have he0 : (0 : ℝ) ≤ (e : ℝ) := by exact_mod_cast hpos.le
  have he1 : (e : ℝ) ≤ 1 := by exact_mod_cast h1
  have hlb := Real.logb_nonpos (by norm_num : (1:ℝ) < 10) he0 he1
  have hq : (0 : ℝ) ≤ (q : ℝ) := by rw [hco]; linarith
  exact_mod_cast hq

/-- Witness for the amended C5 theorem at E-value `1/10`. -/
theorem evl_conversion_clamped_nonneg_witness :
    evlField tokEvT = .ok 1 ∧
    (∀ t0 : Tok, t0.nld = some .inf → evlField t0 = .ok 181) ∧
    ((1 : ℚ)/10 ≤ 1 → 0 ≤ (1 : ℚ)) := by
  refine evl_conversion_clamped_nonneg tokEvT (1/10) 1 rfl rfl ?_ (by norm_num)
  have h : ((1/10 : ℚ) : ℝ) = ((10 : ℝ))⁻¹ := by norm_num
  rw [h, Real.logb_inv, Real.logb_self_eq_one (by norm_num : (1:ℝ) < 10)]
  norm_num

/-- C4 (amended): a record with E-value exactly `0.0` stores the raw
sentinel `evl = 181.0`; after normalization the edge holds
`zro_evl * scale` where the scale is the pair's scale factor for the
stale loop metric (`bsr`), here `(31+10)/31 * (35/2)/100 = 287/1240` -
with no guarantee of dominating finite edges. -/
theorem saturated_evl_stored_then_rescaled :
    evlField tokEv0 = .ok 181 ∧
    (pipeline tcols '|' inSat).map
        (fun o => ((alookup o.raw.edges ("A|1", "B|1")).map (fun d => d.evl),
                   (alookup o.final ("A|1", "B|1")).map (fun d => d.evl))) =
      .ok (some (.num 181), some (.num (287/1240))) ∧
    (287 : ℚ)/1240 = ((31 + 10) / 31) * ((35/2) / 100) := by
  exact ⟨rfl, by with_unfolding_all decide, by norm_num⟩

/-- C4 (counterexample): in the `inSat` run the saturated edge
`A|1 - B|1` ends with normalized `evl = 287/1240`, which is NOT strictly
greater than the normalized `evl = 31` of the edge `C|1 - D|1` whose raw
E-value was finite (`0.1`, raw `evl = 1`). -/
theorem saturated_evl_not_dominant :
    (pipeline tcols '|' inSat).map
        (fun o => ((alookup o.raw.edges ("C|1", "D|1")).map (fun d => d.evl),
                   (alookup o.final ("A|1", "B|1")).map (fun d => d.evl),
                   (alookup o.final ("C|1", "D|1")).map (fun d => d.evl))) =
      .ok (some (.num 1), some (.num (287/1240)), some (.num 31)) ∧
    ¬((287 : ℚ)/1240 > 31) := by
  exact ⟨by with_unfolding_all decide, by norm_num⟩

/-- C1 (counterexample): in the `inPend` run the organism pair
`(A, B)` has one non-pending edge; the average of the scaled `evl`
values over its non-pending edges is `31/91`, not the global pre-scaling
average `31` - the defining property fails for pairs containing an edge
pending E-value normalization, whose sentinel `181` inflates the pair
average used in the scale factor. -/
theorem pending_pair_scaled_average_ne_global :
    (pipeline tcols '|' inPend).map
      (fun o => (o.glob.avgOf Met.evl,
                 scaledPairAvg '|' o.marked o.final ("A", "B") Met.evl)) =
      .ok (some 31, some (31/91)) ∧ (31 : ℚ)/91 ≠ 31 := by
  exact ⟨by with_unfolding_all decide, by norm_num⟩

/-- C6 (counterexample): on input `inNoSelf` (one cross hit, no
self-hits) the Metric Graph Builder completes and omits `bpr`/`bsr` from
the edge, but the run then fails with `KeyError 'bpr'` in
`compute_organism_averages` instead of completing. -/
theorem missing_self_scores_fail_run :
    (getMetrics tcols ⟨[], []⟩ inNoSelf).map
        (fun m => m.edges.map (fun kd => (kd.1, kd.2.bpr, kd.2.bsr))) =
      .ok [(("A|1", "B|1"), none, none)] ∧
    pipeline tcols '|' inNoSelf = .error (.keyError "bpr") := by
  exact ⟨by with_unfolding_all decide, by with_unfolding_all decide⟩

/-- C7 (counterexample): on an input with no records the metric graph has
no edges, and `compute_global_averags` divides the global sums by the
global count `0`, raising `ZeroDivisionError` - the global average is
not always well-defined. -/
theorem empty_graph_global_average_fails :
    computeGlobalAverags [] = .error .zeroDivisionError ∧
    pipeline tcols '|' [] = .error .zeroDivisionError := by
  exact ⟨by with_unfolding_all decide, by with_unfolding_all decide⟩

/-- C8 (counterexample): a malformed record (non-numeric query-length
field `"abc"`) aborts the run with the bare `ValueError` of `float()`,
which carries only the offending field: the error is identical whether
the bad record is the first line (`inBad1`) or the second line
(`inBad2`), so it identifies neither the line number nor the raw line,
and no `MalformedRecordError` exists. -/
theorem malformed_error_lacks_position :
    pipeline tcols '|' inBad1 = .error (.valueError "abc") ∧
    pipeline tcols '|' inBad2 = .error (.valueError "abc") := by
  exact ⟨by with_unfolding_all decide, by with_unfolding_all decide⟩

/-- C9 (counterexample): on input `inAllPend` every edge of the graph is
pending E-value normalization (`min_scl` is never set), yet
`normalize_bit_score_ratios` completes without raising anything - there
is no `NormalizationError` in the program - and stores
`nan = (-inf + 10) / inf` (times the pair scale) as every edge's
`evl`. -/
theorem all_pending_run_completes_with_nan :
    (pipeline tcols '|' inAllPend).map
        (fun o => o.final.map (fun kd => (kd.1, kd.2.evl))) =
      .ok [(("A|1", "A|1"), .nan), (("B|1", "B|1"), .nan),
           (("A|1", "B|1"), .nan)] := by
  with_unfolding_all decide

/-! ### Aggregation lemmas (C6, C7) -/

theorem mem_aset {α : Type} :
    ∀ (l : List ((String × String) × α)) (k : String × String) (v : α)
      (p : String × String) (od : α),
      (p, od) ∈ aset l k v → od = v ∨ (p, od) ∈ l := by
  intro l
  induction l with
  | nil => intro k v p od h; simp [aset] at h
  | cons e es ih =>
    intro k v p od h
    simp only [aset] at h
    by_cases he : e.1 = k
    · rw [if_pos he] at h
      rcases List.mem_cons.mp h with h1 | h1
      · exact Or.inl (congrArg Prod.snd h1)
      · exact Or.inr (List.mem_cons_of_mem e h1)
    · rw [if_neg he] at h
      rcases List.mem_cons.mp h with h1 | h1
      · exact Or.inr (h1 ▸ List.mem_cons_self e es)
      · rcases ih k v p od h1 with h2 | h2
        · exact Or.inl h2
        · exact Or.inr (List.mem_cons_of_mem e h2)

theorem aggEdge_cnt (idchar : Char) (orgs orgs1 : OrgMap)
    (k : String × String) (d : EdgeData)
    (h : aggEdge idchar orgs k d = .ok orgs1)
    (hall : ∀ p od, (p, od) ∈ orgs → 1 ≤ od.cnt) :
    ∀ p od, (p, od) ∈ orgs1 → 1 ≤ od.cnt := by
  cases hev : edgeVals d with
  | error e => simp [aggEdge, hev] at h
  | ok q =>
    obtain ⟨ev, bi, bp, bs⟩ := q
    cases ha : alookup orgs (orgKey idchar k) with
    | some od0 =>
      simp only [aggEdge, hev, ha, Except.ok.injEq] at h
      subst h
      intro p od hmem
      rcases mem_aset _ _ _ _ _ hmem with rfl | hmem'
      · exact Nat.le_add_left 1 od0.cnt
      · exact hall p od hmem'
    | none =>
      simp only [aggEdge, hev, ha, Except.ok.injEq] at h
      subst h
      intro p od hmem
      rcases List.mem_append.mp hmem with hmem' | hmem'
      · exact hall p od hmem'
      · have hod : od = ⟨1, ev, bi, bp, bs, none, none, none, none⟩ :=
          congrArg Prod.snd (List.mem_singleton.mp hmem')
        rw [hod]

theorem aggGo_cnt (idchar : Char) :
    ∀ (es : EdgeMap) (orgs : OrgMap) (r : EdgeMap × OrgMap),
      aggGo idchar es orgs = .ok r →
      (∀ p od, (p, od) ∈ orgs → 1 ≤ od.cnt) →
      ∀ p od, (p, od) ∈ r.2 → 1 ≤ od.cnt := by
  intro es
  induction es with
  | nil =>
    intro orgs r h hall
    obtain rfl : ((([] : EdgeMap), orgs) : EdgeMap × OrgMap) = r := by
      simpa [aggGo] using h
    exact hall
  | cons kd es ih =>
    intro orgs r h hall
    obtain ⟨k, d⟩ := kd
    simp only [aggGo] at h
    cases h1 : aggEdge idchar orgs k d with
    | error e => simp only [h1] at h; cases h
    | ok orgs1 =>
      simp only [h1] at h
      cases h2 : aggGo idchar es orgs1 with
      | error e => simp only [h2] at h; cases h
      | ok r1 =>
        simp only [h2] at h
        obtain ⟨es1, orgsF⟩ := r1
        obtain rfl : (((k, markPending d) :: es1, orgsF) : EdgeMap × OrgMap) = r := by
          simpa using h
        have hall1 := aggEdge_cnt idchar orgs orgs1 k d h1 hall
        exact ih orgs1 (es1, orgsF) h2 hall1

/-- C7 (amended): every organism-pair aggregate produced by the
Aggregator has edge count at least 1, so the per-pair average division
`sum / cnt` cannot divide by zero; the global division, by contrast, can
(see the counterexample). -/
theorem pair_count_ge_one (idchar : Char) (m : MState) (es : EdgeMap)
    (orgs : OrgMap) (h : computeOrganismAverages idchar m = .ok (es, orgs)) :
    ∀ p od, (p, od) ∈ orgs →
      1 ≤ od.cnt ∧ ∀ q : ℚ, ∃ r, pydiv q od.cnt = .ok r := by
  intro p od hmem
  have hcnt := aggGo_cnt idchar m.edges [] (es, orgs) h (by simp) p od hmem
  refine ⟨hcnt, fun q => ?_⟩
  have hne : ((od.cnt : ℚ)) ≠ 0 := by
    have : od.cnt ≠ 0 := Nat.pos_iff_ne_zero.mp hcnt
    exact_mod_cast this
  exact ⟨q / od.cnt, by simp [pydiv, hne]⟩

/-- Witness for the amended C7 theorem on a one-edge graph, at the
single aggregate of the pair `(A, B)`. -/
theorem pair_count_ge_one_witness :
    1 ≤ (⟨1, 1, 1, 1, 1, none, none, none, none⟩ : OrgData).cnt ∧
    ∀ q : ℚ, ∃ r,
      pydiv q ((⟨1, 1, 1, 1, 1, none, none, none, none⟩ : OrgData).cnt) =
        .ok r :=
  pair_count_ge_one '|'
    ⟨[], [(("A|1", "B|1"), ⟨.num 1, 1, some 1, some 1⟩)]⟩
    [(("A|1", "B|1"), ⟨.num 1, 1, some 1, some 1⟩)]
    [(("A", "B"), ⟨1, 1, 1, 1, 1, none, none, none, none⟩)]
    (by with_unfolding_all decide) ("A", "B")
    ⟨1, 1, 1, 1, 1, none, none, none, none⟩
    (by with_unfolding_all decide)

theorem aggGo_ok_mem (idchar : Char) :
    ∀ (es : EdgeMap) (orgs : OrgMap) (r : EdgeMap × OrgMap),
      aggGo idchar es orgs = .ok r → ∀ k d, (k, d) ∈ es →
      ∃ os os1, aggEdge idchar os k d = .ok os1 := by
  intro es
  induction es with
  | nil => intro orgs r h k d hmem; simp at hmem
  | cons kd es ih =>
    intro orgs r h k d hmem
    obtain ⟨k0, d0⟩ := kd
    simp only [aggGo] at h
    cases h1 : aggEdge idchar orgs k0 d0 with
    | error e => simp only [h1] at h; cases h
    | ok orgs1 =>
      simp only [h1] at h
      cases h2 : aggGo idchar es orgs1 with
      | error e => simp only [h2] at h; cases h
      | ok r1 =>
        rcases List.mem_cons.mp hmem with heq | hmem'
        · injection heq with hk hd
          subst hk; subst hd
          exact ⟨orgs, orgs1, h1⟩
        · exact ih orgs1 r1 h2 k d hmem'

theorem aggEdge_ok_keys (idchar : Char) (orgs orgs1 : OrgMap)
    (k : String × String) (d : EdgeData)
    (h : aggEdge idchar orgs k d = .ok orgs1) :
    d.bpr ≠ none ∧ d.bsr ≠ none := by
  unfold aggEdge at h
  cases hev : edgeVals d with
  | error e => rw [hev] at h; cases h
  | ok q =>
    unfold edgeVals at hev
    cases he : pyToQ d.evl with
    | error e => rw [he] at hev; cases hev
    | ok ev =>
      rw [he] at hev
      cases hp : reqKey "bpr" d.bpr with
      | error e => rw [hp] at hev; cases hev
      | ok bp =>
        rw [hp] at hev
        cases hs : reqKey "bsr" d.bsr with
        | error e => rw [hs] at hev; cases hev
        | ok bs =>
          constructor
          · intro hn; rw [hn] at hp; simp [reqKey] at hp
          · intro hn; rw [hn] at hs; simp [reqKey] at hs

/-- C6 (amended): the Metric Graph Builder itself completes on a record
whose endpoints lack self-scores, omitting `bpr`/`bsr` from the edge
(shown on `inNoSelf`), but the subsequent phases do NOT tolerate such
edges: `compute_organism_averages` fails on any graph containing an edge
without a `bpr` or `bsr` key. -/
theorem builder_omits_but_aggregator_fails (idchar : Char) (m : MState)
    (k : String × String) (d : EdgeData) (hmem : (k, d) ∈ m.edges)
    (hmiss : d.bpr = none ∨ d.bsr = none) :
    ((getMetrics tcols ⟨[], []⟩ inNoSelf).map
        (fun m0 => m0.edges.map (fun kd => (kd.2.bpr, kd.2.bsr))) =
      .ok [(none, none)]) ∧
    ∀ r, computeOrganismAverages idchar m ≠ .ok r := by
  constructor
  · with_unfolding_all decide
  · intro r hok
    obtain ⟨os, os1, hstep⟩ :=
      aggGo_ok_mem idchar m.edges [] r hok k d hmem
    obtain ⟨h1, h2⟩ := aggEdge_ok_keys idchar os os1 k d hstep
    rcases hmiss with hm | hm
    · exact h1 hm
    · exact h2 hm

/-- Witness for the amended C6 theorem on the one-edge graph built from
`inNoSelf`. -/
theorem builder_omits_but_aggregator_fails_witness :
    ((getMetrics tcols ⟨[], []⟩ inNoSelf).map
        (fun m0 => m0.edges.map (fun kd => (kd.2.bpr, kd.2.bsr))) =
      .ok [(none, none)]) ∧
    ∀ r, computeOrganismAverages '|'
      ⟨[("A|1", none), ("B|1", none)],
       [(("A|1", "B|1"), ⟨.num 1, 1, none, none⟩)]⟩ ≠ .ok r :=
  builder_omits_but_aggregator_fails '|'
    ⟨[("A|1", none), ("B|1", none)],
     [(("A|1", "B|1"), ⟨.num 1, 1, none, none⟩)]⟩
    ("A|1", "B|1") ⟨.num 1, 1, none, none⟩
    (by simp) (Or.inl rfl)

/-! ### Malformed-record lemmas (C8) -/

theorem parseHit_ok_cols (cols : Cols) (l : Line) (t0 : Tok) (h0 : Hit)
    (hp : parseHit cols l t0 = .ok h0) :
    l[1]?.isNone = false ∧ badCol l cols.qlcol = false ∧
    badCol l cols.slcol = false ∧ badCol l cols.bscol = false ∧
    badColDec l cols.evcol = false := by
  unfold parseHit at hp
  cases h1 : l[1]? with
  | none => simp [colTok, h1] at hp
  | some t1 =>
    simp only [colTok, h1] at hp
    cases hq : l[cols.qlcol]? with
    | none => simp [hq] at hp
    | some tq =>
      simp only [hq] at hp
      cases hqv : tq.val with
      | none => simp [toFloat, hqv] at hp
      | some qlen =>
        simp only [toFloat, hqv] at hp
        cases hsl : l[cols.slcol]? with
        | none => simp [hsl] at hp
        | some ts =>
          simp only [hsl] at hp
          cases hsv : ts.val with
          | none => simp [toFloat, hsv] at hp
          | some rlen =>
            simp only [toFloat, hsv] at hp
            cases hbc : l[cols.bscol]? with
            | none => simp [hbc] at hp
            | some tb =>
              simp only [hbc] at hp
              cases hbv : tb.val with
              | none => simp [toFloat, hbv] at hp
              | some bit =>
                simp only [toFloat, hbv] at hp
                cases hec : l[cols.evcol]? with
                | none => simp [hec] at hp
                | some te =>
                  simp only [hec] at hp
                  cases hev : te.nld with
                  | none => simp [evlField, hev] at hp
                  | some dl =>
                    simp [badCol, badColDec, h1, hq, hqv, hsl, hsv, hbc, hbv,
                      hec, hev]

theorem metStep_ok_not_malformed (cols : Cols) (st st1 : MState) (l : Line)
    (h : metStep cols st l = .ok st1) : malformedLine cols l = false := by
  cases l with
  | nil => rfl
  | cons t0 rest =>
    cases hd : t0.s.data with
    | nil => simp [metStep, hd] at h
    | cons c cs =>
      by_cases hc : c = '#'
      · simp [malformedLine, hd, hc]
      · cases hp : parseHit cols (t0 :: rest) t0 with
        | error e => simp [metStep, hd, hc, hp] at h
        | ok h0 =>
          obtain ⟨c1, c2, c3, c4, c5⟩ :=
            parseHit_ok_cols cols (t0 :: rest) t0 h0 hp
          have c1' : rest[0]?.isSome = true := by simpa using c1
          simp [malformedLine, hd, hc, c1', c2, c3, c4, c5]

/-- C8 (amended): a line that is neither blank nor a comment but
malformed (too few columns, or a non-numeric E-value, bit-score or
length field) aborts the whole run - it is never silently skipped.  (The
raised error carries no line number or raw line; see the
counterexample.) -/
theorem malformed_line_aborts_run (cols : Cols) (idchar : Char)
    (ls : List Line) (l : Line) (hmem : l ∈ ls)
    (hbad : malformedLine cols l = true) :
    ∀ out, pipeline cols idchar ls ≠ .ok out := by
  intro out hok
  unfold pipeline at hok
  cases hs : getSelfBitScoresAndOrgIds cols.bscol idchar ls with
  | error e => simp only [hs] at hok; cases hok
  | ok sst =>
    simp only [hs] at hok
    cases hm : getMetrics cols ⟨sst.nodes, []⟩ ls with
    | error e => simp only [hm] at hok; cases hok
    | ok m =>
      unfold getMetrics at hm
      obtain ⟨acc, st1, hstep⟩ := foldlM_ok_mem hm l hmem
      have hnb := metStep_ok_not_malformed cols acc st1 l hstep
      rw [hnb] at hbad
      cases hbad

/-- Witness for the amended C8 theorem: the malformed `badLine` sits in
`inBad2`; the pipeline aborts with the bare `ValueError` and in
particular does not produce the successful run `outC1`. -/
theorem malformed_line_aborts_run_witness :
    pipeline tcols '|' inBad2 = .error (Err.valueError "abc") ∧
    pipeline tcols '|' inBad2 ≠ .ok outC1 :=
  ⟨by with_unfolding_all decide,
   malformed_line_aborts_run tcols '|' inBad2 badLine
     (by simp [inBad2]) (by with_unfolding_all decide) outC1⟩

/-! ### Normalization lemmas (C9, C10) -/

theorem pass1Edge_null (glob : OrgData) (orgs : OrgMap) (idchar : Char)
    (k : String × String) (d d1 : EdgeData)
    (h : pass1Edge glob orgs idchar k d = .ok d1) (hn : d.evl = PyVal.null) :
    d1.evl = PyVal.null := by
  simp only [pass1Edge, if_pos hn] at h
  split at h
  · cases h
  · split at h
    · cases h
    · split at h
      · cases h
      · split at h
        · cases h
        · split at h
          · cases h
          · injection h with h2
            rw [← h2]
            exact hn

theorem pass1_all_null (glob : OrgData) (orgs : OrgMap) (idchar : Char) :
    ∀ (es : EdgeMap) (mn mx : Option ℚ)
      (r : EdgeMap × Option ℚ × Option ℚ),
      pass1 glob orgs idchar es mn mx = .ok r →
      (∀ kd ∈ es, kd.2.evl = PyVal.null) →
      r.2.1 = mn ∧ r.2.2 = mx ∧ ∀ kd ∈ r.1, kd.2.evl = PyVal.null := by
  intro es
  induction es with
  | nil =>
    intro mn mx r h hall
    obtain rfl : (([], mn, mx) : EdgeMap × Option ℚ × Option ℚ) = r := by
      simpa [pass1] using h
    exact ⟨rfl, rfl, by simp⟩
  | cons kd es ih =>
    intro mn mx r h hall
    obtain ⟨k, d⟩ := kd
    have hd : d.evl = PyVal.null := hall (k, d) (List.mem_cons_self _ _)
    simp only [pass1] at h
    cases h1 : pass1Edge glob orgs idchar k d with
    | error e => simp only [h1] at h; cases h
    | ok d1 =>
      simp only [h1] at h
      have hacc : pass1Acc glob orgs idchar k d mn mx = .ok (mn, mx) := by
        unfold pass1Acc
        rw [if_pos hd]
      simp only [hacc] at h
      cases h2 : pass1 glob orgs idchar es mn mx with
      | error e => simp only [h2] at h; cases h
      | ok r1 =>
        simp only [h2] at h
        obtain ⟨es1, mnF, mxF⟩ := r1
        obtain rfl : (((k, d1) :: es1, mnF, mxF) :
            EdgeMap × Option ℚ × Option ℚ) = r := by
          simpa using h
        have hrest := ih mn mx (es1, mnF, mxF) h2
          (fun kd hk => hall kd (List.mem_cons_of_mem _ hk))
        refine ⟨hrest.1, hrest.2.1, ?_⟩
        intro kd hk
        rcases List.mem_cons.mp hk with rfl | hk'
        · exact pass1Edge_null glob orgs idchar k d d1 h1 hd
        · exact hrest.2.2 kd hk'

theorem pass2_mem (glob : OrgData) (orgs : OrgMap) (idchar : Char)
    (zro : PyVal) :
    ∀ (es out : EdgeMap) (k : String × String) (d : EdgeData),
      pass2 glob orgs idchar zro es = .ok out → (k, d) ∈ es →
      ∃ d1, pass2Edge glob orgs idchar zro k d = .ok d1 ∧ (k, d1) ∈ out := by
  intro es
  induction es with
  | nil => intro out k d h hmem; simp at hmem
  | cons kd es ih =>
    intro out k d h hmem
    obtain ⟨k0, d0⟩ := kd
    simp only [pass2] at h
    cases h1 : pass2Edge glob orgs idchar zro k0 d0 with
    | error e => simp only [h1] at h; cases h
    | ok d1 =>
      simp only [h1] at h
      cases h2 : pass2 glob orgs idchar zro es with
      | error e => simp only [h2] at h; cases h
      | ok es1 =>
        simp only [h2, Except.ok.injEq] at h
        subst h
        rcases List.mem_cons.mp hmem with heq | hmem'
        · injection heq with hk hd
          subst hk; subst hd
          exact ⟨d1, h1, List.mem_cons_self _ _⟩
        · obtain ⟨d2, hstep, hmem2⟩ := ih es1 k d h2 hmem'
          exact ⟨d2, hstep, List.mem_cons_of_mem _ hmem2⟩

theorem pass2_null_nan (glob : OrgData) (orgs : OrgMap) (idchar : Char) :
    ∀ (es out : EdgeMap),
      pass2 glob orgs idchar .nan es = .ok out →
      (∀ kd ∈ es, kd.2.evl = PyVal.null) →
      ∀ kd ∈ out, kd.2.evl = PyVal.nan := by
  intro es
  induction es with
  | nil =>
    intro out h hall
    obtain rfl : ([] : EdgeMap) = out := by simpa [pass2] using h
    simp
  | cons kd es ih =>
    intro out h hall
    obtain ⟨k, d⟩ := kd
    have hd : d.evl = PyVal.null := hall (k, d) (List.mem_cons_self _ _)
    simp only [pass2] at h
    cases h1 : pass2Edge glob orgs idchar .nan k d with
    | error e => simp only [h1] at h; cases h
    | ok d1 =>
      simp only [h1] at h
      cases h2 : pass2 glob orgs idchar .nan es with
      | error e => simp only [h2] at h; cases h
      | ok es1 =>
        simp only [h2, Except.ok.injEq] at h
        subst h
        have hfal : isFalsy d.evl = true := by rw [hd]; rfl
        have hd1 : d1.evl = PyVal.nan := by
          unfold pass2Edge at h1
          rw [if_pos hfal] at h1
          cases hsc : scaleOf glob orgs (orgKey idchar k) .bsr with
          | error e => simp only [hsc] at h1; cases h1
          | ok s =>
            simp only [hsc] at h1
            have hml : pyMulQ PyVal.nan s = .ok PyVal.nan := rfl
            simp only [hml, Except.ok.injEq] at h1
            rw [← h1]
        intro kd hk
        rcases List.mem_cons.mp hk with rfl | hk'
        · exact hd1
        · exact ih es1 h2 (fun kd hk => hall kd (List.mem_cons_of_mem _ hk))
            kd hk'

/-- C9 (amended): on a graph whose edges are all pending E-value
normalization, `normalize_bit_score_ratios` does not fail: the trackers
keep their infinities, `zro_evl` becomes `nan`, and the second pass
stores `nan` as every edge's `evl`. -/
theorem all_pending_normalize_nan (idchar : Char) (es : EdgeMap)
    (orgs : OrgMap) (glob : OrgData) (out : EdgeMap)
    (hall : ∀ kd ∈ es, kd.2.evl = PyVal.null)
    (h : normalizeBitScoreRatios idchar es orgs glob = .ok out) :
    ∀ kd ∈ out, kd.2.evl = PyVal.nan := by
  unfold normalizeBitScoreRatios at h
  cases hp : pass1 glob orgs idchar es none none with
  | error e => simp only [hp] at h; cases h
  | ok r =>
    simp only [hp] at h
    obtain ⟨es1, mn, mx⟩ := r
    obtain ⟨hmn, hmx, hnull⟩ :=
      pass1_all_null glob orgs idchar es none none (es1, mn, mx) hp hall
    simp only at hmn hmx
    subst hmn; subst hmx
    have hz : zroCalc none none = .ok PyVal.nan := rfl
    simp only [hz] at h
    exact pass2_null_nan glob orgs idchar es1 out h hnull

/-- Witness for the amended C9 theorem on the aggregates of the
`inAllPend` run, at the cross edge `A|1 - B|1`. -/
theorem all_pending_normalize_nan_witness :
    normalizeBitScoreRatios '|' markedAllPend orgsAllPend globAllPend =
      .ok outAllPend ∧
    (("A|1", "B|1"), (⟨PyVal.nan, 1, some 1, some 1⟩ : EdgeData)) ∈
      outAllPend ∧
    (⟨PyVal.nan, 1, some 1, some 1⟩ : EdgeData).evl = PyVal.nan :=
  ⟨by with_unfolding_all decide, by with_unfolding_all decide,
   all_pending_normalize_nan '|' markedAllPend orgsAllPend globAllPend
     outAllPend (by with_unfolding_all decide) (by with_unfolding_all decide)
     (("A|1", "B|1"), ⟨PyVal.nan, 1, some 1, some 1⟩)
     (by with_unfolding_all decide)⟩

/-- C10: the second normalization pass selects edges by the falsy test
`if not met_grf[qry_id][ref_id]['evl']`, so an edge whose scaled `evl`
is exactly `0.0` (never marked pending) is also overwritten with the
synthetic substitute `zro_evl * scale`, the scale coming from the stale
loop metric `bsr`. -/
theorem zero_evl_rewritten_as_pending (idchar : Char) (glob : OrgData)
    (orgs : OrgMap) (es es1 : EdgeMap) (mn mx : Option ℚ) (z : PyVal)
    (out : EdgeMap) (k : String × String) (d : EdgeData)
    (h1 : pass1 glob orgs idchar es none none = .ok (es1, mn, mx))
    (hz : zroCalc mx mn = .ok z)
    (h2 : pass2 glob orgs idchar z es1 = .ok out)
    (hmem : (k, d) ∈ es1) (h0 : d.evl = PyVal.num 0) :
    normalizeBitScoreRatios idchar es orgs glob = .ok out ∧
    ∃ s v, scaleOf glob orgs (orgKey idchar k) .bsr = .ok s ∧
      pyMulQ z s = .ok v ∧ (k, { d with evl := v }) ∈ out := by
  constructor
  · unfold normalizeBitScoreRatios
    simp only [h1, hz]
    exact h2
  · obtain ⟨d1, hstep, hmem1⟩ := pass2_mem glob orgs idchar z es1 out k d h2 hmem
    have hfal : isFalsy d.evl = true := by rw [h0]; rfl
    unfold pass2Edge at hstep
    rw [if_pos hfal] at hstep
    cases hsc : scaleOf glob orgs (orgKey idchar k) .bsr with
    | error e => simp only [hsc] at hstep; cases hstep
    | ok s =>
      simp only [hsc] at hstep
      cases hml : pyMulQ z s with
      | error e => simp only [hml] at hstep; cases hstep
      | ok v =>
        simp only [hml, Except.ok.injEq] at hstep
        subst hstep
        exact ⟨s, v, rfl, hml, hmem1⟩

/-- Witness for C10 on the `inZeroEvl` run: the edge `A|1 - B|1` has raw
`evl = -log10(1) = 0`, is never saturated, yet ends rewritten with the
synthetic value `12 = zro_evl * scale`. -/
theorem zero_evl_rewritten_as_pending_witness :
    normalizeBitScoreRatios '|' markedZero orgsZero globZero = .ok outZero ∧
    ∃ s v, scaleOf globZero orgsZero (orgKey '|' ("A|1", "B|1")) .bsr = .ok s ∧
      pyMulQ (PyVal.num 12) s = .ok v ∧
      (("A|1", "B|1"),
        { (⟨PyVal.num 0, 1, some 1, some 1⟩ : EdgeData) with evl := v }) ∈
        outZero :=
  zero_evl_rewritten_as_pending '|' globZero orgsZero markedZero markedZero
    (some 1) (some 2) (PyVal.num 12) outZero ("A|1", "B|1")
    ⟨PyVal.num 0, 1, some 1, some 1⟩
    (by with_unfolding_all decide) (by with_unfolding_all decide)
    (by with_unfolding_all decide) (by with_unfolding_all decide) rfl

/-! ### Association-list and key lemmas (C2) -/

theorem alookup_append_self {α : Type} (es : List ((String × String) × α))
    (K : String × String) (v : α) (h : alookup es K = none) :
    alookup (es ++ [(K, v)]) K = some v := by
  unfold alookup at h ⊢
  cases hf : es.find? (fun e => e.1 = K) with
  | some e => rw [hf] at h; cases h
  | none => simp [List.find?_append, hf, List.find?]

theorem alookup_append_ne {α : Type} (es : List ((String × String) × α))
    (K2 K : String × String) (v : α) (h : K2 ≠ K) :
    alookup (es ++ [(K2, v)]) K = alookup es K := by
  unfold alookup
  cases hf : es.find? (fun e => e.1 = K) with
  | some e => simp [List.find?_append, hf]
  | none => simp [List.find?_append, hf, List.find?, h]

theorem alookup_cons {α : Type} (e : (String × String) × α)
    (es : List ((String × String) × α)) (K : String × String) :
    alookup (e :: es) K = if e.1 = K then some e.2 else alookup es K := by
  unfold alookup
  rw [List.find?_cons]
  by_cases he : e.1 = K
  · simp [he]
  · simp [he]

theorem alookup_aset_self {α : Type} :
    ∀ (es : List ((String × String) × α)) (K : String × String) (v w : α),
      alookup es K = some w → alookup (aset es K v) K = some v := by
  intro es
  induction es with
  | nil => intro K v w h; simp [alookup] at h
  | cons e es ih =>
    intro K v w h
    by_cases he : e.1 = K
    · simp [aset, he, alookup_cons]
    · simp only [aset, if_neg he]
      rw [alookup_cons, if_neg he]
      rw [alookup_cons, if_neg he] at h
      exact ih K v w h

theorem alookup_aset_ne {α : Type} :
    ∀ (es : List ((String × String) × α)) (K2 K : String × String) (v : α),
      K2 ≠ K → alookup (aset es K2 v) K = alookup es K := by
  intro es
  induction es with
  | nil => intro K2 K v h; simp [aset]
  | cons e es ih =>
    intro K2 K v h
    by_cases he : e.1 = K2
    · simp only [aset, if_pos he]
      rw [alookup_cons, alookup_cons, if_neg (by simpa using h),
        if_neg (by rw [he]; exact h)]
    · simp only [aset, if_neg he]
      rw [alookup_cons, alookup_cons]
      by_cases hk : e.1 = K
      · rw [if_pos hk, if_pos hk]
      · rw [if_neg hk, if_neg hk]
        exact ih K2 K v h

theorem alookup_none_not_mem {α : Type}
    (es : List ((String × String) × α)) (K : String × String)
    (h : alookup es K = none) : K ∉ es.map Prod.fst := by
  intro hmem
  obtain ⟨e, he, hk⟩ := List.mem_map.mp hmem
  unfold alookup at h
  cases hf : es.find? (fun x => x.1 = K) with
  | some x => rw [hf] at h; cases h
  | none =>
    have := List.find?_eq_none.mp hf e he
    simp [hk] at this

theorem alookup_some_mem {α : Type} (es : List ((String × String) × α))
    (K : String × String) (v : α) (h : alookup es K = some v) :
    (K, v) ∈ es := by
  unfold alookup at h
  cases hf : es.find? (fun e => e.1 = K) with
  | none => rw [hf] at h; cases h
  | some e =>
    rw [hf] at h
    have hmem := List.mem_of_find?_eq_some hf
    have hkey : e.1 = K := by simpa using List.find?_some hf
    obtain rfl : e.2 = v := by injection h
    obtain ⟨e1, e2⟩ := e
    obtain rfl : e1 = K := hkey
    exact hmem

theorem aset_map_fst {α : Type} :
    ∀ (es : List ((String × String) × α)) (K : String × String) (v : α),
      (aset es K v).map Prod.fst = es.map Prod.fst := by
  intro es
  induction es with
  | nil => intro K v; rfl
  | cons e es ih =>
    intro K v
    by_cases he : e.1 = K
    · simp [aset, he]
    · simp [aset, he, ih]

theorem mem_aset_strong {α : Type} :
    ∀ (l : List ((String × String) × α)) (k : String × String) (v : α)
      (p : String × String) (od : α),
      (p, od) ∈ aset l k v → (p = k ∧ od = v) ∨ (p, od) ∈ l := by
  intro l
  induction l with
  | nil => intro k v p od h; simp [aset] at h
  | cons e es ih =>
    intro k v p od h
    simp only [aset] at h
    by_cases he : e.1 = k
    · rw [if_pos he] at h
      rcases List.mem_cons.mp h with h1 | h1
      · exact Or.inl ⟨congrArg Prod.fst h1, congrArg Prod.snd h1⟩
      · exact Or.inr (List.mem_cons_of_mem e h1)
    · rw [if_neg he] at h
      rcases List.mem_cons.mp h with h1 | h1
      · exact Or.inr (h1 ▸ List.mem_cons_self e es)
      · rcases ih k v p od h1 with h2 | h2
        · exact Or.inl h2
        · exact Or.inr (List.mem_cons_of_mem e h2)

theorem nkey_cases (a b : String) : nkey a b = (a, b) ∨ nkey a b = (b, a) := by
  unfold nkey
  by_cases h : a ≤ b
  · exact Or.inl (if_pos h)
  · exact Or.inr (if_neg h)

theorem nkey_eq_destruct (a b c d : String) (h : nkey a b = nkey c d) :
    (c = a ∧ d = b) ∨ (c = b ∧ d = a) := by
  rcases nkey_cases a b with h1 | h1 <;> rcases nkey_cases c d with h2 | h2 <;>
      rw [h1, h2] at h <;> injection h with hx hy <;>
    first
      | exact Or.inl ⟨hx.symm, hy.symm⟩
      | exact Or.inr ⟨hy.symm, hx.symm⟩
      | exact Or.inr ⟨hx.symm, hy.symm⟩
      | exact Or.inl ⟨hy.symm, hx.symm⟩

theorem hasNode_ensure_self (ns : NodeMap) (a : String) :
    hasNode (ensureNode ns a) a = true := by
  cases hn : hasNode ns a with
  | true => simpa [ensureNode, hn] using hn
  | false =>
    have h2 : ensureNode ns a = ns ++ [(a, none)] := by simp [ensureNode, hn]
    rw [h2]
    unfold hasNode at hn ⊢
    cases hf : ns.find? (fun e => e.1 = a) with
    | some e => rw [hf] at hn; cases hn
    | none => simp [List.find?_append, hf, List.find?]

theorem hasNode_ensure_mono (ns : NodeMap) (a x : String)
    (h : hasNode ns x = true) : hasNode (ensureNode ns a) x = true := by
  cases hn : hasNode ns a with
  | true => simpa [ensureNode, hn] using h
  | false =>
    have h2 : ensureNode ns a = ns ++ [(a, none)] := by simp [ensureNode, hn]
    rw [h2]
    unfold hasNode at h ⊢
    cases hf : ns.find? (fun e => e.1 = x) with
    | none => rw [hf] at h; cases h
    | some e => simp [List.find?_append, hf]

theorem ensure_of_hasNode (ns : NodeMap) (a : String)
    (h : hasNode ns a = true) : ensureNode ns a = ns := by
  unfold ensureNode
  rw [h]
  simp

/-! ### The metric pass, step by step (C2) -/

theorem metStep_skip (cols : Cols) (st st1 : MState) (l : Line)
    (h : metStep cols st l = .ok st1) (hcl : classifyHit cols l = none) :
    st1 = st := by
  cases l with
  | nil =>
    obtain rfl : st = st1 := by simpa [metStep] using h
    rfl
  | cons t0 rest =>
    cases hd : t0.s.data with
    | nil => simp [metStep, hd] at h
    | cons c cs =>
      by_cases hc : c = '#'
      · obtain rfl : st = st1 := by simpa [metStep, hd, hc] using h
        rfl
      · cases hp : parseHit cols (t0 :: rest) t0 with
        | ok h0 => simp [classifyHit, hd, hc, hp] at hcl
        | error e => simp [metStep, hd, hc, hp] at h

theorem metStep_hit (cols : Cols) (st st1 : MState) (l : Line) (h0 : Hit)
    (h : metStep cols st l = .ok st1) (hcl : classifyHit cols l = some h0) :
    ∃ m, computeMetrics st.nodes h0 = .ok m ∧
      ((findEdge st.edges h0.qry h0.ref = none ∧
        st1 = ⟨ensureNode (ensureNode st.nodes h0.qry) h0.ref,
               st.edges ++ [(nkey h0.qry h0.ref, m)]⟩) ∨
       (∃ old, findEdge st.edges h0.qry h0.ref = some old ∧
         ((m.bit > old.bit ∧
           st1 = ⟨st.nodes,
                  aset st.edges (nkey h0.qry h0.ref) (overrideEdge old m)⟩) ∨
          (¬m.bit > old.bit ∧ st1 = st)))) := by
  cases l with
  | nil => simp [classifyHit] at hcl
  | cons t0 rest =>
    cases hd : t0.s.data with
    | nil => simp [classifyHit, hd] at hcl
    | cons c cs =>
      by_cases hc : c = '#'
      · simp [classifyHit, hd, hc] at hcl
      · cases hp : parseHit cols (t0 :: rest) t0 with
        | error e => simp [classifyHit, hd, hc, hp] at hcl
        | ok h1 =>
          obtain rfl : h1 = h0 := by simpa [classifyHit, hd, hc, hp] using hcl
          cases hcm : computeMetrics st.nodes h1 with
          | error e => simp [metStep, hd, hc, hp, hcm] at h
          | ok m =>
            refine ⟨m, rfl, ?_⟩
            cases hfe : findEdge st.edges h1.qry h1.ref with
            | none =>
              left
              refine ⟨rfl, ?_⟩
              have h2 := h
              simp [metStep, hd, hc, hp, hcm, hfe] at h2
              exact h2.symm
            | some old =>
              by_cases hgt : m.bit > old.bit
              · refine Or.inr ⟨old, rfl, Or.inl ⟨hgt, ?_⟩⟩
                have h2 := h
                simp [metStep, hd, hc, hp, hcm, hfe, hgt] at h2
                exact h2.symm
              · refine Or.inr ⟨old, rfl, Or.inr ⟨hgt, ?_⟩⟩
                have h2 := h
                simp [metStep, hd, hc, hp, hcm, hfe, hgt] at h2
                exact h2.symm

theorem metStep_inv (cols : Cols) (st st1 : MState) (l : Line)
    (h : metStep cols st l = .ok st1) (hinv : InvM st) : InvM st1 := by
  cases hcl : classifyHit cols l with
  | none => rw [metStep_skip cols st st1 l h hcl]; exact hinv
  | some h0 =>
    obtain ⟨m, hcm, hcase⟩ := metStep_hit cols st st1 l h0 h hcl
    rcases hcase with ⟨hfe, rfl⟩ | ⟨old, hfe, hcase2⟩
    · constructor
      · rw [List.map_append]
        rw [List.nodup_append]
        refine ⟨hinv.1, List.nodup_singleton _, ?_⟩
        intro x hx hx2
        have : x = nkey h0.qry h0.ref := by simpa using hx2
        subst this
        exact alookup_none_not_mem st.edges _ hfe hx
      · intro kd hmem
        rcases List.mem_append.mp hmem with hm | hm
        · have hep := hinv.2 kd hm
          exact ⟨hasNode_ensure_mono _ _ _ (hasNode_ensure_mono _ _ _ hep.1),
                 hasNode_ensure_mono _ _ _ (hasNode_ensure_mono _ _ _ hep.2)⟩
        · have hkd : kd = (nkey h0.qry h0.ref, m) := List.mem_singleton.mp hm
          subst hkd
          rcases nkey_cases h0.qry h0.ref with hk | hk <;> rw [hk]
          · exact ⟨hasNode_ensure_mono _ _ _ (hasNode_ensure_self st.nodes h0.qry),
                   hasNode_ensure_self _ h0.ref⟩
          · exact ⟨hasNode_ensure_self _ h0.ref,
                   hasNode_ensure_mono _ _ _ (hasNode_ensure_self st.nodes h0.qry)⟩
    · rcases hcase2 with ⟨hgt, rfl⟩ | ⟨hgt, rfl⟩
      · constructor
        · show ((aset st.edges (nkey h0.qry h0.ref) (overrideEdge old m)).map
            Prod.fst).Nodup
          rw [aset_map_fst]
          exact hinv.1
        · intro kd hmem
          obtain ⟨p, od⟩ := kd
          rcases mem_aset_strong _ _ _ _ _ hmem with ⟨rfl, rfl⟩ | hm
          · exact hinv.2 (nkey h0.qry h0.ref, old)
              (alookup_some_mem _ _ _ hfe)
          · exact hinv.2 (p, od) hm
      · exact hinv

/-- The metric pass folds the best-hit policy over the per-pair record
metrics. -/
theorem metrics_go (cols : Cols) (q s : String) :
    ∀ (ls : List Line) (st stF : MState),
      ls.foldlM (metStep cols) st = .ok stF → InvM st →
      findEdge stF.edges q s =
        keepBest (findEdge st.edges q s)
          (histMetrics cols q s st.nodes ls) := by
  intro ls
  induction ls with
  | nil =>
    intro st stF h hinv
    obtain rfl : st = stF := by simpa [pure, Except.pure] using h
    simp [histMetrics, keepBest]
  | cons l ls ih =>
    intro st stF h hinv
    rw [List.foldlM_cons, except_bind_ok] at h
    obtain ⟨st1, hst1, hrest⟩ := h
    have hinv1 := metStep_inv cols st st1 l hst1 hinv
    cases hcl : classifyHit cols l with
    | none =>
      have hskip := metStep_skip cols st st1 l hst1 hcl
      subst hskip
      rw [ih st1 stF hrest hinv]
      simp [histMetrics, hcl]
    | some h0 =>
      obtain ⟨m, hcm, hcase⟩ := metStep_hit cols st st1 l h0 hst1 hcl
      by_cases hk : nkey h0.qry h0.ref = nkey q s
      · have hist_eq : histMetrics cols q s st.nodes (l :: ls) =
            m :: histMetrics cols q s
              (ensureNode (ensureNode st.nodes h0.qry) h0.ref) ls := by
          simp [histMetrics, hcl, hk, hcm]
        rw [hist_eq]
        rcases hcase with ⟨hfe, rfl⟩ | ⟨old, hfe, hcase2⟩
        · have hfqs : findEdge st.edges q s = none := by
            unfold findEdge at hfe ⊢
            rw [← hk]
            exact hfe
          have hlook : findEdge
              (st.edges ++ [(nkey h0.qry h0.ref, m)]) q s = some m := by
            unfold findEdge at hfe ⊢
            rw [← hk]
            exact alookup_append_self st.edges _ m hfe
          rw [ih _ stF hrest hinv1]
          show keepBest (findEdge (st.edges ++ [(nkey h0.qry h0.ref, m)]) q s)
              (histMetrics cols q s
                (ensureNode (ensureNode st.nodes h0.qry) h0.ref) ls) = _
          rw [hlook]
          simp [keepBest, hfqs]
        · have hfqs : findEdge st.edges q s = some old := by
            unfold findEdge at hfe ⊢
            rw [← hk]
            exact hfe
          have hnq : hasNode st.nodes h0.qry = true ∧
              hasNode st.nodes h0.ref = true := by
            have hK := hinv.2 (nkey h0.qry h0.ref, old)
              (alookup_some_mem _ _ _ hfe)
            rcases nkey_cases h0.qry h0.ref with hk2 | hk2 <;> rw [hk2] at hK
            · exact ⟨hK.1, hK.2⟩
            · exact ⟨hK.2, hK.1⟩
          have hens : ensureNode (ensureNode st.nodes h0.qry) h0.ref =
              st.nodes := by
            rw [ensure_of_hasNode _ _ hnq.1, ensure_of_hasNode _ _ hnq.2]
          rw [hens]
          rcases hcase2 with ⟨hgt, rfl⟩ | ⟨hgt, rfl⟩
          · have hlook : findEdge
                (aset st.edges (nkey h0.qry h0.ref) (overrideEdge old m))
                q s = some (overrideEdge old m) := by
              unfold findEdge at hfe ⊢
              rw [← hk]
              exact alookup_aset_self _ _ _ old hfe
            rw [ih _ stF hrest hinv1]
            show keepBest (findEdge
                (aset st.edges (nkey h0.qry h0.ref) (overrideEdge old m)) q s)
                (histMetrics cols q s st.nodes ls) = _
            rw [hlook]
            simp [keepBest, hfqs, hgt]
          · rw [ih _ stF hrest hinv1]
            simp [keepBest, hfqs, hgt]
      · have hist_eq : histMetrics cols q s st.nodes (l :: ls) =
            histMetrics cols q s
              (ensureNode (ensureNode st.nodes h0.qry) h0.ref) ls := by
          simp [histMetrics, hcl, hk, hcm]
        rw [hist_eq]
        rcases hcase with ⟨hfe, rfl⟩ | ⟨old, hfe, hcase2⟩
        · have hlook : findEdge
              (st.edges ++ [(nkey h0.qry h0.ref, m)]) q s =
              findEdge st.edges q s := by
            unfold findEdge
            exact alookup_append_ne _ _ _ m hk
          rw [ih _ stF hrest hinv1]
          show keepBest (findEdge (st.edges ++ [(nkey h0.qry h0.ref, m)]) q s)
              (histMetrics cols q s
                (ensureNode (ensureNode st.nodes h0.qry) h0.ref) ls) = _
          rw [hlook]
        · have hnq : hasNode st.nodes h0.qry = true ∧
              hasNode st.nodes h0.ref = true := by
            have hK := hinv.2 (nkey h0.qry h0.ref, old)
              (alookup_some_mem _ _ _ hfe)
            rcases nkey_cases h0.qry h0.ref with hk2 | hk2 <;> rw [hk2] at hK
            · exact ⟨hK.1, hK.2⟩
            · exact ⟨hK.2, hK.1⟩
          have hens : ensureNode (ensureNode st.nodes h0.qry) h0.ref =
              st.nodes := by
            rw [ensure_of_hasNode _ _ hnq.1, ensure_of_hasNode _ _ hnq.2]
          rw [hens]
          rcases hcase2 with ⟨hgt, rfl⟩ | ⟨hgt, rfl⟩
          · have hlook : findEdge
                (aset st.edges (nkey h0.qry h0.ref) (overrideEdge old m))
                q s = findEdge st.edges q s := by
              unfold findEdge
              exact alookup_aset_ne _ _ _ _ hk
            rw [ih _ stF hrest hinv1]
            show keepBest (findEdge
                (aset st.edges (nkey h0.qry h0.ref) (overrideEdge old m)) q s)
                (histMetrics cols q s st.nodes ls) = _
            rw [hlook]
          · rw [ih _ stF hrest hinv1]

theorem metrics_fold_inv (cols : Cols) :
    ∀ (ls : List Line) (st stF : MState),
      ls.foldlM (metStep cols) st = .ok stF → InvM st → InvM stF := by
  intro ls
  induction ls with
  | nil =>
    intro st stF h hinv
    obtain rfl : st = stF := by simpa [pure, Except.pure] using h
    exact hinv
  | cons l ls ih =>
    intro st stF h hinv
    rw [List.foldlM_cons, except_bind_ok] at h
    obtain ⟨st1, hst1, hrest⟩ := h
    exact ih st1 stF hrest (metStep_inv cols st st1 l hst1 hinv)

theorem nodup_filter_key {α : Type} :
    ∀ (es : List ((String × String) × α)) (K : String × String),
      (es.map Prod.fst).Nodup →
      (es.filter (fun kd => decide (kd.1 = K))).length ≤ 1 := by
  intro es
  induction es with
  | nil => intro K h; simp
  | cons e es ih =>
    intro K h
    rw [List.map_cons, List.nodup_cons] at h
    by_cases he : e.1 = K
    · have hnil : es.filter (fun kd => decide (kd.1 = K)) = [] := by
        rw [List.filter_eq_nil]
        intro kd hkd hp
        have hk2 : kd.1 = K := of_decide_eq_true hp
        exact h.1 (List.mem_map.mpr ⟨kd, hkd, by rw [hk2, he]⟩)
      simp [List.filter_cons, he, hnil]
    · simpa [List.filter_cons, he] using ih K h.2

/-- All per-pair record metrics computed while both endpoints are nodes
carry `bpr` and `bsr`. -/
theorem histMetrics_full (cols : Cols) (q s : String) :
    ∀ (ls : List Line) (ns : NodeMap),
      hasNode ns q = true → hasNode ns s = true →
      ∀ m ∈ histMetrics cols q s ns ls, m.bpr ≠ none ∧ m.bsr ≠ none := by
  intro ls
  induction ls with
  | nil => intro ns hq hs m hm; simp [histMetrics] at hm
  | cons l ls ih =>
    intro ns hq hs m hm
    cases hcl : classifyHit cols l with
    | none =>
      simp only [histMetrics, hcl] at hm
      exact ih ns hq hs m hm
    | some h0 =>
      simp only [histMetrics, hcl] at hm
      have hq1 := hasNode_ensure_mono _ h0.ref q
        (hasNode_ensure_mono _ h0.qry q hq)
      have hs1 := hasNode_ensure_mono _ h0.ref s
        (hasNode_ensure_mono _ h0.qry s hs)
      by_cases hk : nkey h0.qry h0.ref = nkey q s
      · rw [if_pos hk] at hm
        have hq0 : hasNode ns h0.qry = true ∧ hasNode ns h0.ref = true := by
          rcases nkey_eq_destruct _ _ _ _ hk with ⟨h1, h2⟩ | ⟨h1, h2⟩
          · exact ⟨h1 ▸ hq, h2 ▸ hs⟩
          · exact ⟨h2 ▸ hs, h1 ▸ hq⟩
        cases hcm : computeMetrics ns h0 with
        | error e =>
          rw [hcm] at hm
          exact ih _ hq1 hs1 m hm
        | ok mm =>
          rw [hcm] at hm
          rcases List.mem_cons.mp hm with rfl | hm'
          · unfold computeMetrics at hcm
            rw [if_pos ⟨hq0.1, hq0.2⟩] at hcm
            split at hcm
            · cases hcm
            · split at hcm
              · cases hcm
              · split at hcm
                · cases hcm
                · split at hcm
                  · cases hcm
                  · injection hcm with hcm2
                    rw [← hcm2]
                    exact ⟨by simp, by simp⟩
          · exact ih _ hq1 hs1 m hm'
      · rw [if_neg hk] at hm
        exact ih _ hq1 hs1 m hm

/-- Every record metric after the first one for a pair was computed with
both endpoints present as nodes, hence carries `bpr` and `bsr`. -/
theorem histMetrics_tail_full (cols : Cols) (q s : String) :
    ∀ (ls : List Line) (ns : NodeMap) (m0 : EdgeData) (ms : List EdgeData),
      histMetrics cols q s ns ls = m0 :: ms →
      ∀ m ∈ ms, m.bpr ≠ none ∧ m.bsr ≠ none := by
  intro ls
  induction ls with
  | nil => intro ns m0 ms h; simp [histMetrics] at h
  | cons l ls ih =>
    intro ns m0 ms h m hm
    cases hcl : classifyHit cols l with
    | none =>
      simp only [histMetrics, hcl] at h
      exact ih ns m0 ms h m hm
    | some h0 =>
      simp only [histMetrics, hcl] at h
      by_cases hk : nkey h0.qry h0.ref = nkey q s
      · rw [if_pos hk] at h
        have hnn : hasNode (ensureNode (ensureNode ns h0.qry) h0.ref) q = true ∧
            hasNode (ensureNode (ensureNode ns h0.qry) h0.ref) s = true := by
          have hq2 : hasNode (ensureNode (ensureNode ns h0.qry) h0.ref)
              h0.qry = true :=
            hasNode_ensure_mono _ _ _ (hasNode_ensure_self ns h0.qry)
          have hr2 : hasNode (ensureNode (ensureNode ns h0.qry) h0.ref)
              h0.ref = true :=
            hasNode_ensure_self _ h0.ref
          rcases nkey_eq_destruct _ _ _ _ hk with ⟨h1, h2⟩ | ⟨h1, h2⟩
          · exact ⟨h1.symm ▸ hq2, h2.symm ▸ hr2⟩
          · exact ⟨h1.symm ▸ hr2, h2.symm ▸ hq2⟩
        cases hcm : computeMetrics ns h0 with
        | error e =>
          simp only [hcm] at h
          exact histMetrics_full cols q s ls _ hnn.1 hnn.2 m
            (h ▸ List.mem_cons_of_mem m0 hm)
        | ok mm =>
          simp only [hcm] at h
          injection h with h1 h2
          exact histMetrics_full cols q s ls _ hnn.1 hnn.2 m (h2 ▸ hm)
      · rw [if_neg hk] at h
        exact ih _ m0 ms h m hm

theorem overrideEdge_full (e m : EdgeData) (h1 : m.bpr ≠ none)
    (h2 : m.bsr ≠ none) : overrideEdge e m = m := by
  obtain ⟨mev, mbit, mbpr, mbsr⟩ := m
  cases hb : mbpr with
  | none => exact absurd (by simpa using hb) h1
  | some x =>
    cases hs : mbsr with
    | none => exact absurd (by simpa using hs) h2
    | some y =>
      subst hb; subst hs
      rfl

theorem keepBest_eq_firstMax2 :
    ∀ (ms : List EdgeData) (e : EdgeData),
      (∀ m ∈ ms, m.bpr ≠ none ∧ m.bsr ≠ none) →
      keepBest (some e) ms = some (firstMax2 e ms) := by
  intro ms
  induction ms with
  | nil => intro e h; rfl
  | cons m ms ih =>
    intro e h
    have hm := h m (List.mem_cons_self _ _)
    show keepBest (some (if m.bit > e.bit then overrideEdge e m else e)) ms =
      some (firstMax2 (if m.bit > e.bit then m else e) ms)
    by_cases hgt : m.bit > e.bit
    · rw [if_pos hgt, if_pos hgt, overrideEdge_full e m hm.1 hm.2]
      exact ih m (fun x hx => h x (List.mem_cons_of_mem _ hx))
    · rw [if_neg hgt, if_neg hgt]
      exact ih e (fun x hx => h x (List.mem_cons_of_mem _ hx))

theorem firstMax2_spec :
    ∀ (ms : List EdgeData) (e : EdgeData),
      (firstMax2 e ms = e ∧ ∀ m ∈ ms, m.bit ≤ e.bit) ∨
      (∃ i m, ms[i]? = some m ∧ firstMax2 e ms = m ∧ e.bit < m.bit ∧
        (∀ m2 ∈ ms, m2.bit ≤ m.bit) ∧
        ∀ (j : ℕ) (m2 : EdgeData), j < i → ms[j]? = some m2 →
          m2.bit < m.bit) := by
  intro ms
  induction ms with
  | nil => intro e; exact Or.inl ⟨rfl, by simp⟩
  | cons m ms ih =>
    intro e
    by_cases hgt : m.bit > e.bit
    · rcases ih m with ⟨hfix, hall⟩ | ⟨i, mr, hidx, hres, hlt, hall, hfirst⟩
      · refine Or.inr ⟨0, m, ?_, ?_, hgt, ?_, ?_⟩
        · simp
        · show firstMax2 (if m.bit > e.bit then m else e) ms = m
          rw [if_pos hgt]
          exact hfix
        · intro m2 hm2
          rcases List.mem_cons.mp hm2 with rfl | hm3
          · exact le_refl _
          · exact hall m2 hm3
        · intro j m2 hj hx
          exact absurd hj (Nat.not_lt_zero j)
      · refine Or.inr ⟨i + 1, mr, ?_, ?_, lt_trans hgt hlt, ?_, ?_⟩
        · simpa using hidx
        · show firstMax2 (if m.bit > e.bit then m else e) ms = mr
          rw [if_pos hgt]
          exact hres
        · intro m2 hm2
          rcases List.mem_cons.mp hm2 with rfl | hm3
          · exact le_of_lt hlt
          · exact hall m2 hm3
        · intro j m2 hj hidx2
          cases j with
          | zero =>
            obtain rfl : m = m2 := by simpa using hidx2
            exact hlt
          | succ j2 =>
            exact hfirst j2 m2 (Nat.lt_of_succ_lt_succ hj)
              (by simpa using hidx2)
    · rcases ih e with ⟨hfix, hall⟩ | ⟨i, mr, hidx, hres, hlt, hall, hfirst⟩
      · refine Or.inl ⟨?_, ?_⟩
        · show firstMax2 (if m.bit > e.bit then m else e) ms = e
          rw [if_neg hgt]
          exact hfix
        · intro m2 hm2
          rcases List.mem_cons.mp hm2 with rfl | hm3
          · exact le_of_not_lt hgt
          · exact hall m2 hm3
      · refine Or.inr ⟨i + 1, mr, ?_, ?_, hlt, ?_, ?_⟩
        · simpa using hidx
        · show firstMax2 (if m.bit > e.bit then m else e) ms = mr
          rw [if_neg hgt]
          exact hres
        · intro m2 hm2
          rcases List.mem_cons.mp hm2 with rfl | hm3
          · exact le_of_lt (lt_of_le_of_lt (le_of_not_lt hgt) hlt)
          · exact hall m2 hm3
        · intro j m2 hj hidx2
          cases j with
          | zero =>
            obtain rfl : m = m2 := by simpa using hidx2
            exact lt_of_le_of_lt (le_of_not_lt hgt) hlt
          | succ j2 =>
            exact hfirst j2 m2 (Nat.lt_of_succ_lt_succ hj)
              (by simpa using hidx2)

/-- C2: after a successful metric pass started on a graph with no edges,
every unordered pair of identifiers has at most one edge; a pair with no
records has none; and a pair with records carries exactly the metric
dictionary of the first record attaining the maximal bit score among the
pair's records (ties keep the earlier record: replacement requires a
strictly greater bit score). -/
theorem builder_best_hit (cols : Cols) (ns0 : NodeMap) (ls : List Line)
    (stF : MState) (h : getMetrics cols ⟨ns0, []⟩ ls = .ok stF)
    (q s : String) (hqs : q ≠ s) :
    (stF.edges.filter (fun kd => decide (kd.1 = nkey q s))).length ≤ 1 ∧
    (histMetrics cols q s ns0 ls = [] → findEdge stF.edges q s = none) ∧
    (∀ m0 ms, histMetrics cols q s ns0 ls = m0 :: ms →
      ∃ i m, (m0 :: ms)[i]? = some m ∧ findEdge stF.edges q s = some m ∧
        (∀ m' ∈ m0 :: ms, m'.bit ≤ m.bit) ∧
        ∀ (j : ℕ) (m' : EdgeData), j < i → (m0 :: ms)[j]? = some m' →
          m'.bit < m.bit) := by
  have hinv0 : InvM ⟨ns0, []⟩ := ⟨List.nodup_nil, by simp⟩
  unfold getMetrics at h
  have hinvF : InvM stF := metrics_fold_inv cols ls ⟨ns0, []⟩ stF h hinv0
  have hgo : findEdge stF.edges q s =
      keepBest none (histMetrics cols q s ns0 ls) := by
    simpa using metrics_go cols q s ls ⟨ns0, []⟩ stF h hinv0
  refine ⟨nodup_filter_key _ _ hinvF.1, ?_, ?_⟩
  · intro hnil
    rw [hgo, hnil]
    rfl
  · intro m0 ms hcons
    have hfull := histMetrics_tail_full cols q s ls ns0 m0 ms hcons
    rw [hgo, hcons]
    have hk1 : keepBest none (m0 :: ms) = keepBest (some m0) ms := rfl
    rw [hk1, keepBest_eq_firstMax2 ms m0 hfull]
    rcases firstMax2_spec ms m0 with ⟨hfix, hall⟩ |
      ⟨i, mr, hidx, hres, hlt, hall, hfirst⟩
    · refine ⟨0, m0, ?_, ?_, ?_, ?_⟩
      · simp
      · rw [hfix]
      · intro m2 hm2
        rcases List.mem_cons.mp hm2 with rfl | hm3
        · exact le_refl _
        · exact hall m2 hm3
      · intro j m2 hj hx
        exact absurd hj (Nat.not_lt_zero j)
    · refine ⟨i + 1, mr, ?_, ?_, ?_, ?_⟩
      · simpa using hidx
      · rw [hres]
      · intro m2 hm2
        rcases List.mem_cons.mp hm2 with rfl | hm3
        · exact le_of_lt hlt
        · exact hall m2 hm3
      · intro j m2 hj hidx2
        cases j with
        | zero =>
          obtain rfl : m0 = m2 := by simpa using hidx2
          exact hlt
        | succ j2 =>
          exact hfirst j2 m2 (Nat.lt_of_succ_lt_succ hj)
            (by simpa using hidx2)

/-- C2 witness: the metric pass on `inBest` (three records for the pair
`{A|1, B|1}` with bit scores 1, 10, 10) succeeds with result `stBest`,
and the best-hit property holds there concretely. -/
theorem builder_best_hit_witness :
    getMetrics tcols ⟨nsBest, []⟩ inBest = .ok stBest ∧
    ((stBest.edges.filter (fun kd => decide (kd.1 = nkey "A|1" "B|1"))).length ≤ 1 ∧
     (histMetrics tcols "A|1" "B|1" nsBest inBest = [] →
       findEdge stBest.edges "A|1" "B|1" = none) ∧
     (∀ m0 ms, histMetrics tcols "A|1" "B|1" nsBest inBest = m0 :: ms →
       ∃ i m, (m0 :: ms)[i]? = some m ∧
         findEdge stBest.edges "A|1" "B|1" = some m ∧
         (∀ m' ∈ m0 :: ms, m'.bit ≤ m.bit) ∧
         ∀ (j : ℕ) (m' : EdgeData), j < i → (m0 :: ms)[j]? = some m' →
           m'.bit < m.bit)) := by
  have hgm : getMetrics tcols ⟨nsBest, []⟩ inBest = .ok stBest := by
    with_unfolding_all decide
  exact ⟨hgm,
    builder_best_hit tcols nsBest inBest stBest hgm "A|1" "B|1" (by decide)⟩

/-! ### Normalization average lemmas (C1) -/

theorem alookup_of_mem_nodup {α : Type} :
    ∀ (l : List ((String × String) × α)), (l.map Prod.fst).Nodup →
      ∀ k v, (k, v) ∈ l → alookup l k = some v := by
  intro l
  induction l with
  | nil => intro _ k v h; simp at h
  | cons e es ih =>
    intro hnd k v h
    simp only [List.map_cons, List.nodup_cons] at hnd
    rw [alookup_cons]
    rcases List.mem_cons.mp h with rfl | hmem
    · rw [if_pos rfl]
    · by_cases he : e.1 = k
      · exfalso
        have hk : k ∈ es.map Prod.fst := List.mem_map.mpr ⟨(k, v), hmem, rfl⟩
        rw [he] at hnd
        exact hnd.1 hk
      · rw [if_neg he]
        exact ih hnd.2 k v hmem

theorem alookup_forall₂_pair {α : Type}
    (R : ((String × String) × α) → ((String × String) × α) → Prop) :
    ∀ (l l' : List ((String × String) × α)),
      List.Forall₂ (fun a b => b.1 = a.1 ∧ R a b) l l' →
      ∀ k v, alookup l k = some v →
        ∃ w, alookup l' k = some w ∧ R (k, v) (k, w) := by
  intro l l' h
  induction h with
  | nil => intro k v hv; simp [alookup] at hv
  | @cons a b l1 l2 hab htl ih =>
    obtain ⟨a1, a2⟩ := a
    obtain ⟨b1, b2⟩ := b
    obtain ⟨hk, hR⟩ := hab
    intro k v hv
    rw [alookup_cons] at hv
    rw [alookup_cons]
    by_cases ha : a1 = k
    · subst ha
      obtain rfl : b1 = a1 := hk
      obtain rfl : a2 = v := by simpa using hv
      rw [if_pos rfl]
      exact ⟨b2, rfl, hR⟩
    · rw [if_neg ha] at hv
      rw [if_neg (by rw [hk]; exact ha)]
      exact ih k v hv

theorem filterMap_eq_map_of_some {α β : Type} (f : α → Option β) (g : α → β) :
    ∀ (l : List α), (∀ x ∈ l, f x = some (g x)) → l.filterMap f = l.map g := by
  intro l
  induction l with
  | nil => intro _; rfl
  | cons x xs ih =>
    intro h
    simp only [List.filterMap_cons, h x (List.mem_cons_self x xs),
      List.map_cons]
    rw [ih (fun y hy => h y (List.mem_cons_of_mem x hy))]

theorem pyToQ_ok (v : PyVal) (q : ℚ) (h : pyToQ v = .ok q) : v = .num q := by
  cases v <;> simp [pyToQ] at h
  exact congrArg PyVal.num h

theorem reqKey_ok (n : String) (v : Option ℚ) (q : ℚ)
    (h : reqKey n v = .ok q) : v = some q := by
  cases v <;> simp [reqKey] at h
  exact congrArg some h

theorem edgeVals_ok_shape (d : EdgeData) (ev bi bp bs : ℚ)
    (h : edgeVals d = .ok (ev, bi, bp, bs)) :
    d.evl = .num ev ∧ bi = d.bit ∧ d.bpr = some bp ∧ d.bsr = some bs := by
  unfold edgeVals at h
  cases he : pyToQ d.evl with
  | error e => rw [he] at h; cases h
  | ok ev0 =>
    rw [he] at h
    cases hp : reqKey "bpr" d.bpr with
    | error e => rw [hp] at h; cases h
    | ok bp0 =>
      rw [hp] at h
      cases hs : reqKey "bsr" d.bsr with
      | error e => rw [hs] at h; cases h
      | ok bs0 =>
        rw [hs] at h
        simp only [Except.ok.injEq, Prod.mk.injEq] at h
        obtain ⟨rfl, hbi, rfl, rfl⟩ := h
        exact ⟨pyToQ_ok d.evl ev0 he, hbi.symm,
          reqKey_ok "bpr" d.bpr bp0 hp, reqKey_ok "bsr" d.bsr bs0 hs⟩

theorem aggEdge_ok_vals (idchar : Char) (orgs orgs1 : OrgMap)
    (k : String × String) (d : EdgeData)
    (h : aggEdge idchar orgs k d = .ok orgs1) :
    ∃ v, edgeVals d = .ok v := by
  cases hev : edgeVals d with
  | error e => simp [aggEdge, hev] at h
  | ok v => exact ⟨v, rfl⟩

theorem aggGo_marked (idchar : Char) :
    ∀ (es : EdgeMap) (orgs : OrgMap) (r : EdgeMap × OrgMap),
      aggGo idchar es orgs = .ok r →
      r.1 = es.map (fun kd => (kd.1, markPending kd.2)) := by
  intro es
  induction es with
  | nil =>
    intro orgs r h
    obtain rfl : (([], orgs) : EdgeMap × OrgMap) = r := by
      simpa [aggGo] using h
    rfl
  | cons kd es ih =>
    intro orgs r h
    obtain ⟨k, d⟩ := kd
    simp only [aggGo] at h
    cases h1 : aggEdge idchar orgs k d with
    | error e => simp only [h1] at h; cases h
    | ok orgs1 =>
      simp only [h1] at h
      cases h2 : aggGo idchar es orgs1 with
      | error e => simp only [h2] at h; cases h
      | ok r1 =>
        simp only [h2] at h
        obtain ⟨es1, orgsF⟩ := r1
        obtain rfl : (((k, markPending d) :: es1, orgsF) : EdgeMap × OrgMap) = r := by
          simpa using h
        simp only [List.map_cons]
        exact congrArg (fun t => (k, markPending d) :: t)
          (ih orgs1 (es1, orgsF) h2)

theorem aggEdge_pair (idchar : Char) (orgs orgs1 : OrgMap)
    (k : String × String) (d : EdgeData) (p : String × String)
    (h : aggEdge idchar orgs k d = .ok orgs1) :
    (orgKey idchar k = p →
      pairCnt orgs1 p = pairCnt orgs p + 1 ∧
      ∀ m, pairSum orgs1 p m = pairSum orgs p m + mval d m) ∧
    (orgKey idchar k ≠ p →
      pairCnt orgs1 p = pairCnt orgs p ∧
      ∀ m, pairSum orgs1 p m = pairSum orgs p m) := by
  cases hev : edgeVals d with
  | error e => simp [aggEdge, hev] at h
  | ok q =>
    obtain ⟨ev, bi, bp, bs⟩ := q
    obtain ⟨hevl, hbi, hbp, hbs⟩ := edgeVals_ok_shape d ev bi bp bs hev
    subst hbi
    have hm1 : mval d .evl = ev := by simp [mval, hevl]
    have hm3 : mval d .bpr = bp := by simp [mval, hbp]
    have hm4 : mval d .bsr = bs := by simp [mval, hbs]
    cases ha : alookup orgs (orgKey idchar k) with
    | some od0 =>
      simp only [aggEdge, hev, ha, Except.ok.injEq] at h
      subst h
      constructor
      · intro hp
        subst hp
        have hl : alookup (aset orgs (orgKey idchar k)
            { od0 with
                cnt := od0.cnt + 1
                evl_sum := od0.evl_sum + ev
                bit_sum := od0.bit_sum + d.bit
                bpr_sum := od0.bpr_sum + bp
                bsr_sum := od0.bsr_sum + bs }) (orgKey idchar k) =
            some { od0 with
                cnt := od0.cnt + 1
                evl_sum := od0.evl_sum + ev
                bit_sum := od0.bit_sum + d.bit
                bpr_sum := od0.bpr_sum + bp
                bsr_sum := od0.bsr_sum + bs } :=
          alookup_aset_self orgs (orgKey idchar k) _ od0 ha
        refine ⟨by simp [pairCnt, hl, ha], fun m => ?_⟩
        cases m <;>
          simp [pairSum, hl, ha, OrgData.sumOf, hm1, hm3, hm4, mval,
            hevl, hbp, hbs]
      · intro hp
        have hl := alookup_aset_ne orgs (orgKey idchar k) p
          ({ od0 with
              cnt := od0.cnt + 1
              evl_sum := od0.evl_sum + ev
              bit_sum := od0.bit_sum + d.bit
              bpr_sum := od0.bpr_sum + bp
              bsr_sum := od0.bsr_sum + bs } : OrgData) hp
        exact ⟨by simp [pairCnt, hl], fun m => by simp [pairSum, hl]⟩
    | none =>
      simp only [aggEdge, hev, ha, Except.ok.injEq] at h
      subst h
      constructor
      · intro hp
        subst hp
        have hl := alookup_append_self orgs (orgKey idchar k)
          (⟨1, ev, d.bit, bp, bs, none, none, none, none⟩ : OrgData) ha
        refine ⟨by simp [pairCnt, hl, ha], fun m => ?_⟩
        cases m <;>
          simp [pairSum, hl, ha, OrgData.sumOf, mval, hevl, hbp, hbs]
      · intro hp
        have hl := alookup_append_ne orgs (orgKey idchar k) p
          (⟨1, ev, d.bit, bp, bs, none, none, none, none⟩ : OrgData) hp
        exact ⟨by simp [pairCnt, hl], fun m => by simp [pairSum, hl]⟩

theorem aggGo_pair (idchar : Char) :
    ∀ (es : EdgeMap) (orgs : OrgMap) (r : EdgeMap × OrgMap),
      aggGo idchar es orgs = .ok r → ∀ p,
      pairCnt r.2 p = pairCnt orgs p +
        (es.filter (fun kd => decide (orgKey idchar kd.1 = p))).length ∧
      ∀ m, pairSum r.2 p m = pairSum orgs p m +
        ((es.filter (fun kd => decide (orgKey idchar kd.1 = p))).map
          (fun kd => mval kd.2 m)).sum := by
  intro es
  induction es with
  | nil =>
    intro orgs r h p
    obtain rfl : (([], orgs) : EdgeMap × OrgMap) = r := by
      simpa [aggGo] using h
    simp
  | cons kd es ih =>
    intro orgs r h p
    obtain ⟨k, d⟩ := kd
    simp only [aggGo] at h
    cases h1 : aggEdge idchar orgs k d with
    | error e => simp only [h1] at h; cases h
    | ok orgs1 =>
      simp only [h1] at h
      cases h2 : aggGo idchar es orgs1 with
      | error e => simp only [h2] at h; cases h
      | ok r1 =>
        simp only [h2] at h
        obtain ⟨es1, orgsF⟩ := r1
        obtain rfl : (((k, markPending d) :: es1, orgsF) : EdgeMap × OrgMap) = r := by
          simpa using h
        have htl := ih orgs1 (es1, orgsF) h2 p
        have hhd := aggEdge_pair idchar orgs orgs1 k d p h1
        by_cases hp : orgKey idchar k = p
        · obtain ⟨hc, hs⟩ := hhd.1 hp
          refine ⟨?_, fun m => ?_⟩
          · rw [List.filter_cons, if_pos (by simp [hp]), List.length_cons,
              htl.1, hc]
            omega
          · rw [List.filter_cons, if_pos (by simp [hp]), List.map_cons,
              List.sum_cons, htl.2 m, hs m]
            ring
        · obtain ⟨hc, hs⟩ := hhd.2 hp
          refine ⟨?_, fun m => ?_⟩
          · rw [List.filter_cons, if_neg (by simp [hp]), htl.1, hc]
          · rw [List.filter_cons, if_neg (by simp [hp]), htl.2 m, hs m]

theorem globEdge_ok (glob od glob1 od1 : OrgData)
    (h : globEdge glob od = .ok (glob1, od1)) :
    od.cnt ≠ 0 ∧ od1 = setAvgs od := by
  by_cases hc : ((od.cnt : ℚ)) = 0
  · simp only [globEdge, pydiv, if_pos hc] at h
    cases h
  · simp only [globEdge, pydiv, if_neg hc, Except.ok.injEq,
      Prod.mk.injEq] at h
    exact ⟨Nat.cast_ne_zero.mp hc, h.2.symm⟩

theorem globGo_lookup :
    ∀ (orgs : OrgMap) (glob : OrgData) (r : OrgMap × OrgData),
      globGo glob orgs = .ok r →
      ∀ p od, alookup orgs p = some od →
        od.cnt ≠ 0 ∧ alookup r.1 p = some (setAvgs od) := by
  intro orgs
  induction orgs with
  | nil => intro glob r h p od hod; simp [alookup] at hod
  | cons e os ih =>
    intro glob r h p od hod
    obtain ⟨p0, od0⟩ := e
    simp only [globGo] at h
    cases h1 : globEdge glob od0 with
    | error e => simp only [h1] at h; cases h
    | ok g1 =>
      simp only [h1] at h
      obtain ⟨glob1, od1⟩ := g1
      cases h2 : globGo glob1 os with
      | error e => simp only [h2] at h; cases h
      | ok r1 =>
        simp only [h2] at h
        obtain ⟨os1, globF⟩ := r1
        obtain rfl : (((p0, od1) :: os1, globF) : OrgMap × OrgData) = r := by
          simpa using h
        obtain ⟨hc0, rfl⟩ := globEdge_ok glob od0 glob1 od1 h1
        rw [alookup_cons] at hod
        by_cases hp : p0 = p
        · rw [if_pos hp] at hod
          obtain rfl : od0 = od := by simpa using hod
          refine ⟨hc0, ?_⟩
          rw [alookup_cons]
          exact if_pos hp
        · rw [if_neg hp] at hod
          obtain ⟨hcnt, hlk⟩ := ih glob1 (os1, globF) h2 p od hod
          refine ⟨hcnt, ?_⟩
          rw [alookup_cons, if_neg hp]
          exact hlk

theorem computeGlobal_char (orgs orgs1 : OrgMap) (glob : OrgData)
    (h : computeGlobalAverags orgs = .ok (orgs1, glob)) :
    (∀ p od, alookup orgs p = some od →
      od.cnt ≠ 0 ∧ alookup orgs1 p = some (setAvgs od)) ∧
    ∀ m, ∃ g, glob.avgOf m = some g := by
  unfold computeGlobalAverags at h
  cases h0 : globGo glob0 orgs with
  | error e => rw [h0] at h; cases h
  | ok r0 =>
    rw [h0] at h
    obtain ⟨orgs0, glob1⟩ := r0
    by_cases hc : ((glob1.cnt : ℚ)) = 0
    · simp only [pydiv, if_pos hc] at h
      cases h
    · simp only [pydiv, if_neg hc, Except.ok.injEq, Prod.mk.injEq] at h
      obtain ⟨rfl, rfl⟩ := h
      refine ⟨fun p od hod => globGo_lookup orgs glob0 (orgs0, glob1) h0 p od hod, ?_⟩
      intro m
      cases m <;> exact ⟨_, rfl⟩

theorem avgOf_setAvgs (od : OrgData) (m : Met) :
    (setAvgs od).avgOf m = some (od.sumOf m / od.cnt) := by
  cases m <;> rfl

theorem pass1_forall₂ (glob : OrgData) (orgs : OrgMap) (idchar : Char) :
    ∀ (es : EdgeMap) (mn mx : Option ℚ) (r : EdgeMap × Option ℚ × Option ℚ),
      pass1 glob orgs idchar es mn mx = .ok r →
      List.Forall₂ (fun kd kd1 => kd1.1 = kd.1 ∧
        pass1Edge glob orgs idchar kd.1 kd.2 = .ok kd1.2) es r.1 := by
  intro es
  induction es with
  | nil =>
    intro mn mx r h
    obtain rfl : (([], mn, mx) : EdgeMap × Option ℚ × Option ℚ) = r := by
      simpa [pass1] using h
    exact List.Forall₂.nil
  | cons kd es ih =>
    intro mn mx r h
    obtain ⟨k, d⟩ := kd
    simp only [pass1] at h
    cases h1 : pass1Edge glob orgs idchar k d with
    | error e => simp only [h1] at h; cases h
    | ok d1 =>
      simp only [h1] at h
      cases h2 : pass1Acc glob orgs idchar k d mn mx with
      | error e => simp only [h2] at h; cases h
      | ok mm =>
        simp only [h2] at h
        obtain ⟨mn1, mx1⟩ := mm
        cases h3 : pass1 glob orgs idchar es mn1 mx1 with
        | error e => simp only [h3] at h; cases h
        | ok r1 =>
          simp only [h3] at h
          obtain ⟨es1, mnF, mxF⟩ := r1
          obtain rfl : (((k, d1) :: es1, mnF, mxF) :
              EdgeMap × Option ℚ × Option ℚ) = r := by simpa using h
          exact List.Forall₂.cons ⟨rfl, h1⟩ (ih mn1 mx1 (es1, mnF, mxF) h3)

theorem pass2_forall₂ (glob : OrgData) (orgs : OrgMap) (idchar : Char)
    (zro : PyVal) :
    ∀ (es es2 : EdgeMap), pass2 glob orgs idchar zro es = .ok es2 →
      List.Forall₂ (fun kd kd2 => kd2.1 = kd.1 ∧
        pass2Edge glob orgs idchar zro kd.1 kd.2 = .ok kd2.2) es es2 := by
  intro es
  induction es with
  | nil =>
    intro es2 h
    obtain rfl : ([] : EdgeMap) = es2 := by simpa [pass2] using h
    exact List.Forall₂.nil
  | cons kd es ih =>
    intro es2 h
    obtain ⟨k, d⟩ := kd
    simp only [pass2] at h
    cases h1 : pass2Edge glob orgs idchar zro k d with
    | error e => simp only [h1] at h; cases h
    | ok d1 =>
      simp only [h1] at h
      cases h2 : pass2 glob orgs idchar zro es with
      | error e => simp only [h2] at h; cases h
      | ok es1 =>
        simp only [h2] at h
        obtain rfl : ((k, d1) :: es1 : EdgeMap) = es2 := by simpa using h
        exact List.Forall₂.cons ⟨rfl, h1⟩ (ih es1 h2)

theorem scaleOf_char (glob : OrgData) (orgs : OrgMap) (p : String × String)
    (m : Met) (s : ℚ) (h : scaleOf glob orgs p m = .ok s) :
    ∃ g a od, glob.avgOf m = some g ∧ alookup orgs p = some od ∧
      od.avgOf m = some a ∧ a ≠ 0 ∧ s = g / a := by
  unfold scaleOf at h
  cases hg : glob.avgOf m with
  | none => simp only [hg] at h; cases h
  | some g =>
    simp only [hg] at h
    cases ho : alookup orgs p with
    | none => simp only [ho] at h; cases h
    | some od =>
      simp only [ho] at h
      cases ha : od.avgOf m with
      | none => simp only [ha] at h; cases h
      | some a =>
        simp only [ha, pydiv] at h
        by_cases h0 : a = 0
        · rw [if_pos h0] at h; cases h
        · rw [if_neg h0] at h
          refine ⟨g, a, od, rfl, rfl, ha, h0, ?_⟩
          injection h with hs
          exact hs.symm

theorem pass2Edge_skip (glob : OrgData) (orgs : OrgMap) (idchar : Char)
    (zro : PyVal) (k : String × String) (d : EdgeData)
    (h : isFalsy d.evl = false) :
    pass2Edge glob orgs idchar zro k d = .ok d := by
  simp [pass2Edge, h]

theorem getQ_evl_some (d : EdgeData) (x : ℚ) (h : getQ d .evl = some x) :
    d.evl = .num x := by
  cases hd : d.evl <;> simp [getQ, hd] at h
  exact congrArg PyVal.num h

theorem pass1Edge_char (glob : OrgData) (orgs : OrgMap) (idchar : Char)
    (k : String × String) (d d1 : EdgeData) (q vp vs : ℚ)
    (hq : d.evl = .num q) (hbp : d.bpr = some vp) (hbs : d.bsr = some vs)
    (h : pass1Edge glob orgs idchar k d = .ok d1) :
    ∀ m, ∃ s, scaleOf glob orgs (orgKey idchar k) m = .ok s ∧
      getQ d1 m = some (mval d m * s) := by
  simp only [pass1Edge, hq] at h
  rw [if_neg (show PyVal.num q ≠ PyVal.null by simp)] at h
  cases hse : scaleOf glob orgs (orgKey idchar k) .evl with
  | error e => simp only [hse] at h; cases h
  | ok se =>
    simp only [hse, pyMulQ] at h
    cases hsb : scaleOf glob orgs (orgKey idchar k) .bit with
    | error e => simp only [hsb] at h; cases h
    | ok sb =>
      simp only [hsb] at h
      cases hsp : scaleOf glob orgs (orgKey idchar k) .bpr with
      | error e => simp only [hsp] at h; cases h
      | ok sp =>
        simp only [hsp] at h
        simp only [hbp, reqKey] at h
        cases hss : scaleOf glob orgs (orgKey idchar k) .bsr with
        | error e => simp only [hss] at h; cases h
        | ok ss =>
          simp only [hss] at h
          simp only [hbs, reqKey] at h
          obtain rfl : ({ d with
              evl := PyVal.num (q * se)
              bit := d.bit * sb
              bpr := some (vp * sp)
              bsr := some (vs * ss) } : EdgeData) = d1 := by
            simpa using h
          intro m
          cases m with
          | evl => exact ⟨se, hse, by simp [getQ, mval, hq]⟩
          | bit => exact ⟨sb, hsb, by simp [getQ, mval]⟩
          | bpr => exact ⟨sp, hsp, by simp [getQ, mval, hbp]⟩
          | bsr => exact ⟨ss, hss, by simp [getQ, mval, hbs]⟩

theorem scaled_pair_avg_core (idchar : Char) (raw : MState)
    (marked es1 finEs : EdgeMap) (orgs0 orgs1 : OrgMap) (glob : OrgData)
    (mn mx : Option ℚ) (z : PyVal)
    (hnd : (raw.edges.map Prod.fst).Nodup)
    (hagg : aggGo idchar raw.edges [] = .ok (marked, orgs0))
    (hglob : computeGlobalAverags orgs0 = .ok (orgs1, glob))
    (hp1 : pass1 glob orgs1 idchar marked none none = .ok (es1, mn, mx))
    (hp2 : pass2 glob orgs1 idchar z es1 = .ok finEs)
    (p : String × String) (m : Met)
    (hnf : ∀ kd ∈ marked, orgKey idchar kd.1 = p → isFalsy kd.2.evl = false)
    (hg0 : glob.evl_avg ≠ some 0)
    (hne : pairEdges idchar marked p ≠ []) :
    scaledPairAvg idchar marked finEs p m = glob.avgOf m := by
  have hmk : marked = raw.edges.map (fun kd => (kd.1, markPending kd.2)) :=
    aggGo_marked idchar raw.edges [] (marked, orgs0) hagg
  have hndm : (marked.map Prod.fst).Nodup := by
    rw [hmk, List.map_map]
    exact hnd
  have hfeq : marked.filter
      (fun kd => decide (orgKey idchar kd.1 = p ∧ kd.2.evl ≠ PyVal.null)) =
      marked.filter (fun kd => decide (orgKey idchar kd.1 = p)) := by
    apply List.filter_congr
    intro kd hkd
    by_cases hA : orgKey idchar kd.1 = p
    · have hB : kd.2.evl ≠ PyVal.null := by
        intro hnull
        have hfal := hnf kd hkd hA
        rw [hnull] at hfal
        simp [isFalsy] at hfal
      simp [hA, hB]
    · simp [hA]
  have hmp : ∀ kd ∈ raw.edges.filter
      (fun kd => decide (orgKey idchar kd.1 = p)),
      markPending kd.2 = kd.2 := by
    intro kd hkd
    have hkA : orgKey idchar kd.1 = p := by
      simpa using List.of_mem_filter hkd
    have hmem : (kd.1, markPending kd.2) ∈ marked := by
      rw [hmk]
      exact List.mem_map.mpr ⟨kd, List.mem_of_mem_filter hkd, rfl⟩
    have hfal := hnf (kd.1, markPending kd.2) hmem hkA
    by_cases h181 : kd.2.evl = PyVal.num 181
    · exfalso
      simp [markPending, h181, isFalsy] at hfal
    · simp [markPending, h181]
  have hL : marked.filter (fun kd => decide (orgKey idchar kd.1 = p)) =
      raw.edges.filter (fun kd => decide (orgKey idchar kd.1 = p)) := by
    rw [hmk, List.filter_map]
    calc ((raw.edges.filter
            (fun kd => decide (orgKey idchar kd.1 = p))).map
            (fun kd => (kd.1, markPending kd.2))) =
        (raw.edges.filter
            (fun kd => decide (orgKey idchar kd.1 = p))).map id :=
          List.map_congr_left (fun kd hkd => by rw [hmp kd hkd]; exact rfl)
      _ = raw.edges.filter (fun kd => decide (orgKey idchar kd.1 = p)) :=
          List.map_id _
  have hne1 : marked.filter (fun kd => decide (orgKey idchar kd.1 = p)) ≠
      [] := hne
  have hLne : raw.edges.filter (fun kd => decide (orgKey idchar kd.1 = p)) ≠
      [] := by rw [← hL]; exact hne1
  have hpair := aggGo_pair idchar raw.edges [] (marked, orgs0) hagg p
  cases hlo : alookup orgs0 p with
  | none =>
    exfalso
    have hz0 : pairCnt orgs0 p = 0 := by simp [pairCnt, hlo]
    rw [hpair.1] at hz0
    have : (raw.edges.filter
        (fun kd => decide (orgKey idchar kd.1 = p))).length = 0 := by
      simpa [pairCnt, alookup] using hz0
    exact hLne (List.length_eq_zero.mp this)
  | some od =>
    have h00 : pairCnt ([] : OrgMap) p = 0 := rfl
    have h01 : pairSum ([] : OrgMap) p m = 0 := rfl
    have hcnt : od.cnt = (raw.edges.filter
        (fun kd => decide (orgKey idchar kd.1 = p))).length := by
      have h1 := hpair.1
      rw [h00] at h1
      simpa [pairCnt, hlo] using h1
    have hsum : od.sumOf m = ((raw.edges.filter
        (fun kd => decide (orgKey idchar kd.1 = p))).map
        (fun kd => mval kd.2 m)).sum := by
      have h2 := hpair.2 m
      rw [h01] at h2
      simpa [pairSum, hlo] using h2
    obtain ⟨hlk, hgex⟩ := computeGlobal_char orgs0 orgs1 glob hglob
    obtain ⟨hcne, hlo1⟩ := hlk p od hlo
    have hf1 := pass1_forall₂ glob orgs1 idchar marked none none
      (es1, mn, mx) hp1
    have hf2 := pass2_forall₂ glob orgs1 idchar z es1 finEs hp2
    obtain ⟨kd0, hkd0⟩ := List.exists_mem_of_ne_nil _ hLne
    have hkd0m : kd0 ∈ marked := by
      have : kd0 ∈ marked.filter
          (fun kd => decide (orgKey idchar kd.1 = p)) := by
        rw [hL]; exact hkd0
      exact List.mem_of_mem_filter this
    have hkA0 : orgKey idchar kd0.1 = p := by
      simpa using List.of_mem_filter hkd0
    obtain ⟨os, os1, hagge0⟩ := aggGo_ok_mem idchar raw.edges []
      (marked, orgs0) hagg kd0.1 kd0.2 (List.mem_of_mem_filter hkd0)
    obtain ⟨v0, hev0⟩ := aggEdge_ok_vals idchar os os1 kd0.1 kd0.2 hagge0
    obtain ⟨ev0, bi0, bp0, bs0⟩ := v0
    obtain ⟨hevl0, _, hbp0, hbs0⟩ := edgeVals_ok_shape kd0.2 ev0 bi0 bp0 bs0 hev0
    have halm0 : alookup marked kd0.1 = some kd0.2 :=
      alookup_of_mem_nodup marked hndm kd0.1 kd0.2 hkd0m
    obtain ⟨d10, h1lk0, hP10⟩ := alookup_forall₂_pair
      (fun a b => pass1Edge glob orgs1 idchar a.1 a.2 = .ok b.2)
      marked es1 hf1 kd0.1 kd0.2 halm0
    have hchar0 := pass1Edge_char glob orgs1 idchar kd0.1 kd0.2 d10
      ev0 bp0 bs0 hevl0 hbp0 hbs0 hP10
    obtain ⟨s, hscm, hgq0⟩ := hchar0 m
    rw [hkA0] at hscm
    obtain ⟨se, hsce, hgqe0⟩ := hchar0 .evl
    rw [hkA0] at hsce
    obtain ⟨g, a, od1, hga, hlo1a, ha1, hane, hsval⟩ :=
      scaleOf_char glob orgs1 p m s hscm
    obtain rfl : od1 = setAvgs od := by
      have := hlo1a.symm.trans hlo1
      injection this
    have haval : a = od.sumOf m / od.cnt := by
      have := ha1.symm.trans (avgOf_setAvgs od m)
      injection this
    obtain ⟨ge, ae, ode1, hgae, hloe, hae1, haene, hseval⟩ :=
      scaleOf_char glob orgs1 p .evl se hsce
    have hgene : ge ≠ 0 := by
      intro h0
      apply hg0
      have : glob.evl_avg = some ge := hgae
      rw [this, h0]
    have hsene : se ≠ 0 := by
      rw [hseval]
      exact div_ne_zero hgene haene
    have hval : ∀ kd ∈ marked.filter
        (fun kd => decide (orgKey idchar kd.1 = p)),
        (alookup finEs kd.1).bind (fun d => getQ d m) =
          some (mval kd.2 m * s) := by
      intro kd hkd
      have hkA : orgKey idchar kd.1 = p := by
        simpa using List.of_mem_filter hkd
      have hkdm : kd ∈ marked := List.mem_of_mem_filter hkd
      have hkdr : kd ∈ raw.edges.filter
          (fun kd => decide (orgKey idchar kd.1 = p)) := by
        rw [← hL]; exact hkd
      obtain ⟨os2, os3, hagge⟩ := aggGo_ok_mem idchar raw.edges []
        (marked, orgs0) hagg kd.1 kd.2 (List.mem_of_mem_filter hkdr)
      obtain ⟨v, hev⟩ := aggEdge_ok_vals idchar os2 os3 kd.1 kd.2 hagge
      obtain ⟨ev, bi, bp, bs⟩ := v
      obtain ⟨hevl, _, hbp, hbs⟩ := edgeVals_ok_shape kd.2 ev bi bp bs hev
      have hfal := hnf kd hkdm hkA
      have hevne : ev ≠ 0 := by
        intro h0
        rw [hevl] at hfal
        simp [isFalsy, h0] at hfal
      have halm : alookup marked kd.1 = some kd.2 :=
        alookup_of_mem_nodup marked hndm kd.1 kd.2 hkdm
      obtain ⟨d1, h1lk, hP1e⟩ := alookup_forall₂_pair
        (fun a b => pass1Edge glob orgs1 idchar a.1 a.2 = .ok b.2)
        marked es1 hf1 kd.1 kd.2 halm
      have hchar := pass1Edge_char glob orgs1 idchar kd.1 kd.2 d1
        ev bp bs hevl hbp hbs hP1e
      obtain ⟨sm, hsm, hgq⟩ := hchar m
      rw [hkA] at hsm
      have hsmeq : sm = s := by
        have hx := hsm.symm.trans hscm
        injection hx
      rw [hsmeq] at hgq
      obtain ⟨se1, hse1, hgqe⟩ := hchar .evl
      rw [hkA] at hse1
      have hseeq : se1 = se := by
        have hx := hse1.symm.trans hsce
        injection hx
      rw [hseeq] at hgqe
      have hd1evl : d1.evl = .num (mval kd.2 .evl * se) :=
        getQ_evl_some d1 _ hgqe
      have hmvev : mval kd.2 .evl = ev := by simp [mval, hevl]
      have hnz : mval kd.2 .evl * se ≠ 0 := by
        rw [hmvev]
        exact mul_ne_zero hevne hsene
      have hfal1 : isFalsy d1.evl = false := by
        rw [hd1evl]
        simp [isFalsy, hnz]
      obtain ⟨d2, h2lk, hP2e⟩ := alookup_forall₂_pair
        (fun a b => pass2Edge glob orgs1 idchar z a.1 a.2 = .ok b.2)
        es1 finEs hf2 kd.1 d1 h1lk
      have hskip : pass2Edge glob orgs1 idchar z kd.1 d1 = .ok d1 :=
        pass2Edge_skip glob orgs1 idchar z kd.1 d1 hfal1
      obtain rfl : d1 = d2 := by
        have := hskip.symm.trans hP2e
        injection this
      rw [h2lk, Option.some_bind]
      exact hgq
    simp only [scaledPairAvg]
    rw [hfeq, List.filterMap_map,
      filterMap_eq_map_of_some _ (fun kd => mval kd.2 m * s) _ hval,
      List.length_map, List.length_map]
    have hlenne : (marked.filter
        (fun kd => decide (orgKey idchar kd.1 = p))).length ≠ 0 := by
      intro h0
      exact hne1 (List.length_eq_zero.mp h0)
    rw [if_pos ⟨rfl, hlenne⟩]
    rw [hga]
    have hsum2 : ((marked.filter
        (fun kd => decide (orgKey idchar kd.1 = p))).map
        (fun kd => mval kd.2 m * s)).sum =
        od.sumOf m * s := by
      rw [List.sum_map_mul_right, hL, ← hsum]
    rw [hsum2]
    have hn : ((marked.filter
        (fun kd => decide (orgKey idchar kd.1 = p))).length : ℚ) =
        (od.cnt : ℚ) := by
      rw [hcnt, hL]
    rw [hn]
    have hcq : ((od.cnt : ℚ)) ≠ 0 := Nat.cast_ne_zero.mpr hcne
    have hSne : od.sumOf m ≠ 0 := by
      intro h0
      apply hane
      rw [haval, h0, zero_div]
    congr 1
    rw [hsval, haval]
    field_simp

/-- C1 (amended): after a successful full run, consider an organism pair
none of whose edges in the aggregated graph carries a falsy `evl`
(`None`, i.e. pending E-value normalization, or `0.0`), and let the
global `evl` average be nonzero (so no scaled `evl` vanishes and the
second normalization pass leaves the pair's edges untouched).  Then for
every metric the average of the final scaled edge values over the pair's
edges equals the global pre-scaling average of that metric exactly.  The
claim's unrestricted form - every pair with at least one non-pending
edge - is refuted by the counterexample, where a pending edge shares the
pair. -/
theorem scaled_pair_average_matches_global
    (cols : Cols) (idchar : Char) (ls : List Line) (out : RunOut)
    (h : pipeline cols idchar ls = .ok out)
    (p : String × String) (m : Met)
    (hnf : ∀ kd ∈ out.marked, orgKey idchar kd.1 = p →
      isFalsy kd.2.evl = false)
    (hg0 : out.glob.evl_avg ≠ some 0)
    (hne : pairEdges idchar out.marked p ≠ []) :
    scaledPairAvg idchar out.marked out.final p m = out.glob.avgOf m := by
  unfold pipeline at h
  cases hs : getSelfBitScoresAndOrgIds cols.bscol idchar ls with
  | error e => simp only [hs] at h; cases h
  | ok sst =>
    simp only [hs] at h
    cases hm : getMetrics cols ⟨sst.nodes, []⟩ ls with
    | error e => simp only [hm] at h; cases h
    | ok raw =>
      simp only [hm] at h
      cases hagg : computeOrganismAverages idchar raw with
      | error e => simp only [hagg] at h; cases h
      | ok mo =>
        simp only [hagg] at h
        obtain ⟨marked, orgs0⟩ := mo
        cases hglob : computeGlobalAverags orgs0 with
        | error e => simp only [hglob] at h; cases h
        | ok og =>
          simp only [hglob] at h
          obtain ⟨orgs1, glob⟩ := og
          cases hnorm : normalizeBitScoreRatios idchar marked orgs1 glob with
          | error e => simp only [hnorm] at h; cases h
          | ok finEs =>
            simp only [hnorm] at h
            obtain rfl : (⟨sst, raw, marked, orgs1, glob, finEs⟩ :
                RunOut) = out := by simpa using h
            have hinv0 : InvM ⟨sst.nodes, []⟩ := ⟨List.nodup_nil, by simp⟩
            unfold getMetrics at hm
            have hinvF : InvM raw :=
              metrics_fold_inv cols ls ⟨sst.nodes, []⟩ raw hm hinv0
            unfold normalizeBitScoreRatios at hnorm
            cases hp1 : pass1 glob orgs1 idchar marked none none with
            | error e => simp only [hp1] at hnorm; cases hnorm
            | ok r1 =>
              simp only [hp1] at hnorm
              obtain ⟨es1, mn, mx⟩ := r1
              cases hz : zroCalc mx mn with
              | error e => simp only [hz] at hnorm; cases hnorm
              | ok z =>
                simp only [hz] at hnorm
                exact scaled_pair_avg_core idchar raw marked es1 finEs
                  orgs0 orgs1 glob mn mx z hinvF.1 hagg hglob hp1 hnorm
                  p m hnf hg0 hne

/-- C1 witness: on `inC1` the pair `(A, B)` has one non-pending, nonzero
edge; the scaled `bit` average over the pair equals the global `bit`
average (both 4). -/
theorem scaled_pair_average_matches_global_witness :
    pipeline tcols '|' inC1 = .ok outC1 ∧
    (∀ kd ∈ outC1.marked, orgKey '|' kd.1 = ("A", "B") →
      isFalsy kd.2.evl = false) ∧
    outC1.glob.evl_avg ≠ some 0 ∧
    pairEdges '|' outC1.marked ("A", "B") ≠ [] ∧
    scaledPairAvg '|' outC1.marked outC1.final ("A", "B") .bit =
      outC1.glob.avgOf .bit := by
  have hpipe : pipeline tcols '|' inC1 = .ok outC1 := by
    with_unfolding_all decide
  refine ⟨hpipe, ?_, ?_, ?_, ?_⟩
  · with_unfolding_all decide
  · with_unfolding_all decide
  · with_unfolding_all decide
  · exact scaled_pair_average_matches_global tcols '|' inC1 outC1 hpipe
      ("A", "B") .bit (by with_unfolding_all decide)
      (by with_unfolding_all decide) (by with_unfolding_all decide)

end BlastGraph
